import Mathlib

/-!
Verification of the OpenMatchEngine binary-container codec against its
specification.

The repository decodes and patches a proprietary length-prefixed binary
container format (".jsb" files).  This development gives a shallow embedding
of the relevant source functions:

* the token stream reader `tok_stream` of src/player_ratings_decoder.py,
  modelled by `tokNext`;
* the structural parsers `parse_expected_score`, `parse_role_data`,
  `parse_role_lookup` of the same file;
* the scalar decoder helpers `_find_indicator`, `_int_size`, `_grab` of
  src/physics_decode_jsb.py, and `verify_physical_constraints`;
* the binary patcher `patch_physical_constraints` of prepare_simatch.py
  together with its hardcoded offsets table.

Buffers are byte lists (`List Nat`, each element < 256 in practice).  Python
strings produced by decoding buffer slices are represented by their raw
UTF-8 bytes (`List Nat`); every comparison the source performs on such
strings is against a pure-ASCII constant, and strict UTF-8 decoding maps a
byte sequence to a given ASCII string exactly when the bytes are that ASCII
sequence, so the representation is observationally exact for the embedded
code.  Reads that raise Python exceptions (IndexError, struct.error,
ValueError, OverflowError) are modelled by explicit error results.
-/

set_option maxHeartbeats 1000000
set_option maxRecDepth 100000

deriving instance DecidableEq for Except

namespace OpenMatchEngine

/-! ## Byte-buffer primitives -/

/-- Python slice `buf[i : i+k]`: clamps at both ends, never raises. -/
def pySlice (buf : List Nat) (i k : Nat) : List Nat :=
  (buf.drop i).take k

/-- Little-endian value of a byte list, least significant byte first. -/
def leNat : List Nat → Nat
  | [] => 0
  | b :: rest => b + 256 * leNat rest

/-- Two-complement reading of a 4-byte little-endian unsigned value, as done
by struct.unpack "<i". -/
def toSigned32 (x : Nat) : Int :=
  if x < 2 ^ 31 then (x : Int) else (x : Int) - 2 ^ 32

/-- Two-complement reading of an 8-byte little-endian unsigned value, as done
by struct.unpack "<q". -/
def toSigned64 (x : Nat) : Int :=
  if x < 2 ^ 63 then (x : Int) else (x : Int) - 2 ^ 64

/-- struct.unpack_from "<i" at offset p: requires 4 readable bytes. -/
def unpackI32 (buf : List Nat) (p : Nat) : Option Int :=
  if p + 4 ≤ buf.length then some (toSigned32 (leNat (pySlice buf p 4))) else none

/-- struct.unpack_from "<q" at offset p: requires 8 readable bytes. -/
def unpackI64 (buf : List Nat) (p : Nat) : Option Int :=
  if p + 8 ≤ buf.length then some (toSigned64 (leNat (pySlice buf p 8))) else none

/-- struct.unpack_from "<I" at offset p: requires 4 readable bytes. -/
def unpackU32 (buf : List Nat) (p : Nat) : Option Nat :=
  if p + 4 ≤ buf.length then some (leNat (pySlice buf p 4)) else none

/-- struct.unpack_from "<Q" at offset p: requires 8 readable bytes. -/
def unpackU64 (buf : List Nat) (p : Nat) : Option Nat :=
  if p + 8 ≤ buf.length then some (leNat (pySlice buf p 8)) else none

/-- UTF-8 bytes of an ASCII string (the only string constants the source
compares against). -/
def asciiBytes (s : String) : List Nat :=
  s.toList.map Char.toNat

/-! ## Token stream reader (tok_stream of src/player_ratings_decoder.py) -/

/-- Token kind tag, the typ component of a yielded token. -/
inductive TokTyp
  | i32
  | i64
  | str
  | ctl
  deriving DecidableEq, Repr

/-- Token payload: integers for i32/i64 tokens, byte strings for str/ctl. -/
inductive TokVal
  | int (v : Int)
  | str (bytes : List Nat)
  deriving DecidableEq, Repr

/-- Result of asking the token generator for its next token.  eof models
StopIteration, err models an uncaught Python exception (IndexError or
struct.error) escaping the generator. -/
inductive TokRes
  | eof
  | err
  | tok (key : List Nat) (typ : TokTyp) (val : TokVal) (cursor : Nat)
  deriving DecidableEq, Repr

/-- Uppercase hex digit, used by the percent-02X formatting of control
markers. -/
def hexDigit (d : Nat) : Nat :=
  if d < 10 then 48 + d else 55 + d

/-- Bytes of the string the reader stores for a control marker v. -/
def ctlBytes (v : Nat) : List Nat :=
  [60, 109, 48, 120, hexDigit (v / 16 % 16), hexDigit (v % 16), 62]

/-- The four sentinel bytes that announce a separate key-length byte. -/
def sentinelByte (m : Nat) : Bool :=
  m = 0x2A || m = 0x4A || m = 0x5A || m = 0x6A

/-- Decode the value part of a token: buf position i holds the value marker,
key is the already-extracted key bytes.  Mirrors the marker dispatch of
tok_stream. -/
def readVal (buf : List Nat) (key : List Nat) (i : Nat) : TokRes :=
  match buf[i]? with
  | none => .err
  | some vmark =>
    if vmark = 0x02 then
      match unpackI32 buf (i + 1) with
      | none => .err
      | some v => .tok key .i32 (.int v) (i + 5)
    else if vmark = 0x03 then
      match unpackI64 buf (i + 1) with
      | none => .err
      | some v => .tok key .i64 (.int v) (i + 9)
    else if vmark = 0x08 then
      match unpackU32 buf (i + 1) with
      | none => .err
      | some slen => .tok key .str (.str (pySlice buf (i + 5) slen)) (i + 5 + slen)
    else if 0x80 ≤ vmark ∧ vmark ≤ 0x8F then
      .tok key .str (.str (pySlice buf (i + 1) (vmark % 16))) (i + 1 + vmark % 16)
    else
      .tok key .ctl (.str (ctlBytes vmark)) (i + 1)

/-- Scanning worker of the tok_stream generator, structurally recursive on
the distance k between the cursor and the stop bound n (the cursor is
n - k).  The while-loop runs as long as the cursor plus 2 is below n, that
is, as long as k is at least 3; skipping one byte turns k + 3 into k + 2 and
skipping a sentinel plus its bad length byte turns k + 3 into k + 1. -/
def tokNextK (buf : List Nat) (n : Nat) : Nat → TokRes
  | 0 => .eof
  | 1 => .eof
  | 2 => .eof
  | k + 3 =>
    let i := n - (k + 3)
    match buf[i]? with
    | none => .err
    | some mark =>
      if sentinelByte mark then
        match buf[i + 1]? with
        | none => .err
        | some klen =>
          if 0 < klen ∧ klen ≤ 96 then
            readVal buf (pySlice buf (i + 2) klen) (i + 2 + klen)
          else
            tokNextK buf n (k + 1)
      else if 0 < mark ∧ mark ≤ 96 then
        readVal buf (pySlice buf (i + 1) mark) (i + 1 + mark)
      else
        tokNextK buf n (k + 2)

/-- One step of the tok_stream generator: produce the next token of buf
scanning from position i with stop bound n.  A malformed key header makes the
reader skip bytes and retry, exactly as the while-loop with continue does. -/
def tokNext (buf : List Nat) (i n : Nat) : TokRes :=
  tokNextK buf n (n - i)

/-! ## Fixed-triplet parser (parse_expected_score) -/

/-- Decode errors raised by player_ratings_decoder parse functions. -/
inductive PdErr
  | eofIn
  | tokenMismatch
  | pyErr
  | anchorBad
  deriving DecidableEq, Repr

/-- One expected_score_data triplet (Expected_score_object). -/
structure EsRow where
  name : List Nat
  negative_multiplier : Int
  positive_multiplier : Int
  deriving DecidableEq, Repr

/-- The expect helper: pull the next token from the stream at pos, demand key
wkey and one of the types wtyps, return value and cursor. -/
def expect (buf : List Nat) (pos n : Nat) (wkey : List Nat) (wtyps : List TokTyp) :
    Except PdErr (TokVal × Nat) :=
  match tokNext buf pos n with
  | .eof => .error .eofIn
  | .err => .error .pyErr
  | .tok k t v cur =>
    if k = wkey ∧ wtyps.contains t then .ok (v, cur) else .error .tokenMismatch

/-- The body_start helper: check the key text at the anchor, demand a 0xC9 or
0x99 container marker right after it, and return the first token position. -/
def body_start (buf : List Nat) (anchor : Nat) (key : List Nat) : Except PdErr Nat :=
  if pySlice buf anchor key.length = key then
    match buf[anchor + key.length]? with
    | none => .error .pyErr
    | some ctl =>
      if ctl = 0xC9 ∨ ctl = 0x99 then .ok (anchor + key.length + 1)
      else .error .anchorBad
  else .error .anchorBad

/-- The last decoded character has value below 32 (name and ord check of
parse_expected_score; exact on bytes because a trailing byte below 0x80 is a
complete character and any trailing multibyte or replacement character has a
value of at least 32). -/
def lastLT32 (bs : List Nat) : Bool :=
  match bs.getLast? with
  | some c => c < 32
  | none => false

/-- Row loop of parse_expected_score.  fuel counts the remaining rows of the
fixed 11.  The resynchronisation restarts the stream one byte before the
cursor returned with the name token; the trim of the trailing control byte is
executed only when verbose is true, reproducing the source indentation that
puts the trim inside the verbose-print block. -/
def parseEsRows (buf : List Nat) (stop : Nat) (verbose : Bool) :
    Nat → Nat → List EsRow → Except PdErr (List EsRow)
  | 0, _, acc => .ok acc
  | fuel + 1, pos, acc =>
    match expect buf pos stop (asciiBytes "name") [.str] with
    | .error e => .error e
    | .ok (.int _, _) => .error .pyErr
    | .ok (.str nameBytes, npos) =>
      let name2 := if lastLT32 nameBytes ∧ verbose then nameBytes.dropLast else nameBytes
      let pos2 := if lastLT32 nameBytes then npos - 1 else npos
      match expect buf pos2 stop (asciiBytes "negative_multiplier") [.i32, .i64] with
      | .error e => .error e
      | .ok (.str _, _) => .error .pyErr
      | .ok (.int neg, pos3) =>
        match expect buf pos3 stop (asciiBytes "positive_multiplier") [.i32, .i64] with
        | .error e => .error e
        | .ok (.str _, _) => .error .pyErr
        | .ok (.int posv, pos4) =>
          parseEsRows buf stop verbose fuel pos4 (acc ++ [⟨name2, neg, posv⟩])

/-- parse_expected_score: locate the body after the expected_score_data key
and decode the 11 triplets. -/
def parse_expected_score (buf : List Nat) (start stop : Nat) (verbose : Bool) :
    Except PdErr (List EsRow) :=
  match body_start buf start (asciiBytes "expected_score_data") with
  | .error e => .error e
  | .ok body => parseEsRows buf stop verbose 11 body []

/-! ## Substring search (the bytes find and index methods) -/

/-- Search worker, structurally recursive on the distance between the scan
position j and the end of data. -/
def findSubK (data pat : List Nat) : Nat → Nat → Option Nat
  | 0, _ => none
  | k + 1, j =>
    if pySlice data j pat.length = pat then some j else findSubK data pat k (j + 1)

/-- bytes.find(pat, start): smallest j at or after start where pat occurs in
data, none when absent. -/
def findSub (data pat : List Nat) (start : Nat) : Option Nat :=
  findSubK data pat (data.length + 1 - start) start

/-! ## Repeating block parser (parse_role_data) -/

/-- One role_data coefficient (Role_object). -/
structure RoleCoeff where
  name : List Nat
  value : Int
  deriving DecidableEq, Repr

/-- Result of parse_role_data: the sealed blocks and the size of the
discarded trailing fragment (0 when no fragment was reported). -/
structure RdOut where
  blocks : List (List RoleCoeff)
  dropped : Nat
  deriving DecidableEq, Repr

/-- The clean_label helper of parse_role_data. -/
def clean_label (raw : List Nat) : List Nat :=
  match raw with
  | [] => []
  | tag :: _ =>
    if tag = 0x08 ∧ 5 ≤ raw.length then raw.drop 5
    else if 0x80 ≤ tag ∨ tag = 0x68 then raw.drop 1
    else raw.dropWhile (fun b => b < 32)

/-- ZigZag decoding of the accumulated unsigned varint value. -/
def zigzag (res : Nat) : Int :=
  if res % 2 = 0 then ((res / 2 : Nat) : Int) else -((res / 2 : Nat) : Int) - 1

/-- Worker of the read_varint helper; the first argument is remaining fuel,
instantiated with the distance from p to the end of data, which bounds the
number of continuation bytes.  Accumulating with addition equals the
bitwise-or of the source because the 7-bit groups occupy disjoint bit
ranges. -/
def readVarintK (data : List Nat) : Nat → Nat → Nat → Nat → Option (Int × Nat)
  | 0, _, _, _ => none
  | k + 1, p, res, shift =>
    match data[p]? with
    | none => none
    | some b =>
      let res2 := res + b % 128 * 2 ^ shift
      if b < 128 then some (zigzag res2, p + 1)
      else readVarintK data k (p + 1) res2 (shift + 7)

/-- The read_varint helper: ZigZag varint starting at p; none models the
IndexError raised when the buffer ends inside the varint. -/
def readVarint (data : List Nat) (p : Nat) : Option (Int × Nat) :=
  readVarintK data (data.length - p) p 0 0

/-- Label sentinel preceding a coefficient name in role_data. -/
def nameSent : List Nat := [0x3A, 0x04] ++ asciiBytes "name"

/-- Label sentinel preceding a coefficient value in role_data. -/
def valueSent : List Nat := [0x05] ++ asciiBytes "value"

/-- Value decode of one role_data coefficient: the tag byte at p selects
INT32, INT64, tiny positive, tiny negative or ZigZag varint, giving the value
and the offset after it.  Errors model IndexError and struct.error. -/
def roleValueAt (data : List Nat) (p : Nat) : Except PdErr (Int × Nat) :=
  match data[p]? with
  | none => .error .pyErr
  | some tag =>
    if tag = 0x02 then
      match unpackI32 data (p + 1) with
      | none => .error .pyErr
      | some v => .ok (v, p + 5)
    else if tag = 0x03 then
      match unpackI64 data (p + 1) with
      | none => .error .pyErr
      | some v => .ok (v, p + 9)
    else if 0x80 ≤ tag ∧ tag ≤ 0xBF then .ok ((tag : Int) - 0x80, p + 1)
    else if 0xC0 ≤ tag ∧ tag ≤ 0xFF then .ok (-((tag : Int) - 0xC0), p + 1)
    else
      match readVarint data p with
      | none => .error .pyErr
      | some vn => .ok vn

/-- Main scan loop of parse_role_data.  fuel is instantiated with one more
than the data length; the cursor strictly increases and never passes the data
length, so the fuel never runs out from the top-level entry and the fuel-zero
branch returns the same loop-exit value the surrounding code would produce. -/
def roleLoop (data : List Nat) (body stop : Nat) :
    Nat → Nat → List (List RoleCoeff) → List RoleCoeff → Except PdErr RdOut
  | 0, _, blocks, coeffs => .ok ⟨blocks, coeffs.length⟩
  | fuel + 1, cur, blocks, coeffs =>
    match findSub data nameSent cur with
    | none => .ok ⟨blocks, coeffs.length⟩
    | some npos =>
      let lstart := npos + 6
      match findSub data valueSent lstart with
      | none => .ok ⟨blocks, coeffs.length⟩
      | some vpos =>
        let name := clean_label (pySlice data lstart (vpos - lstart))
        match roleValueAt data (vpos + 6) with
        | .error e => .error e
        | .ok (value, nxt) =>
          let coeffs2 := coeffs ++ [⟨name, value⟩]
          let blocks2 := if coeffs2.length = 52 then blocks ++ [coeffs2] else blocks
          let coeffs3 := if coeffs2.length = 52 then [] else coeffs2
          if stop ≤ body + nxt then .ok ⟨blocks2, coeffs3.length⟩
          else roleLoop data body stop fuel nxt blocks2 coeffs3

/-- Flat variant of the role_data scan: identical traversal, but the
coefficients are collected in one flat list with no block sealing.  Used to
state what parse_role_data does with the stream of scanned entries. -/
def roleScanFlat (data : List Nat) (body stop : Nat) :
    Nat → Nat → List RoleCoeff → Except PdErr (List RoleCoeff)
  | 0, _, acc => .ok acc
  | fuel + 1, cur, acc =>
    match findSub data nameSent cur with
    | none => .ok acc
    | some npos =>
      let lstart := npos + 6
      match findSub data valueSent lstart with
      | none => .ok acc
      | some vpos =>
        let name := clean_label (pySlice data lstart (vpos - lstart))
        match roleValueAt data (vpos + 6) with
        | .error e => .error e
        | .ok (value, nxt) =>
          if stop ≤ body + nxt then .ok (acc ++ [⟨name, value⟩])
          else roleScanFlat data body stop fuel nxt (acc ++ [⟨name, value⟩])

/-- Locate the role_data body: key text check, container marker dispatch
(object 0xC9 or 0x99, array 0x09 with a skipped 4-byte length), returning
the body offset. -/
def roleBody (buf : List Nat) (start : Nat) : Except PdErr Nat :=
  if pySlice buf start 9 = asciiBytes "role_data" then
    match buf[start + 9]? with
    | none => .error .pyErr
    | some marker =>
      if marker = 0xC9 ∨ marker = 0x99 then .ok (start + 10)
      else if marker = 0x09 then .ok (start + 14)
      else .error .anchorBad
  else .error .anchorBad

/-- parse_role_data: scan the role_data section for name and value label
pairs, sealing a block after every 52 collected coefficients and dropping a
trailing partial block. -/
def parse_role_data (buf : List Nat) (start stop : Nat) : Except PdErr RdOut :=
  match roleBody buf start with
  | .error e => .error e
  | .ok body =>
    let data := pySlice buf body (stop - body)
    roleLoop data body stop (data.length + 1) 0 [] []

/-- The flat scan entered from the same container handling, collecting every
coefficient the scan visits in order. -/
def role_data_flat (buf : List Nat) (start stop : Nat) : Except PdErr (List RoleCoeff) :=
  match roleBody buf start with
  | .error e => .error e
  | .ok body =>
    let data := pySlice buf body (stop - body)
    roleScanFlat data body stop (data.length + 1) 0 []

/-- Split a list into fully filled 52-element chunks, discarding the
remainder; structurally recursive on fuel instantiated with the list
length. -/
def chunksOf52K : Nat → List RoleCoeff → List (List RoleCoeff)
  | 0, _ => []
  | k + 1, l => if 52 ≤ l.length then l.take 52 :: chunksOf52K k (l.drop 52) else []

/-- The 52-chunks of a list, remainder dropped. -/
def chunksOf52 (l : List RoleCoeff) : List (List RoleCoeff) :=
  chunksOf52K l.length l

/-- Reassembly of a flat coefficient stream into the sealed-blocks view,
relative to already sealed blocks and a partial block in progress. -/
def rdAssemble (blocks : List (List RoleCoeff)) (coeffs rest : List RoleCoeff) : RdOut :=
  ⟨blocks ++ chunksOf52 (coeffs ++ rest), (coeffs ++ rest).length % 52⟩

/-! ## Index and value table parser (parse_role_lookup) -/

/-- One role_lookup_data row (Role_lookup_object). -/
structure RlRow where
  index : Int
  role : Int
  deriving DecidableEq, Repr

/-- Errors of parse_role_lookup.  truncated is the RuntimeError raised when a
declared count is not met; sentinelMissing is the ValueError escaping from
data.index; badTag is the ValueError of read_int; oob covers IndexError and
struct.error. -/
inductive RlErr
  | keyMissing
  | badContainer
  | truncated
  | sentinelMissing
  | badTag
  | oob
  deriving DecidableEq, Repr

/-- The read_int helper of parse_role_lookup: nibble codec first, then the
four fixed-width tags, then tiny unsigned, otherwise a ValueError. -/
def rlReadInt (d : List Nat) (p : Nat) : Except RlErr (Int × Nat) :=
  match d[p]? with
  | none => .error .oob
  | some tag =>
    if 0x80 ≤ tag ∧ tag % 16 = 2 then .ok (((tag % 128 / 16 : Nat) : Int), p + 1)
    else if tag = 2 then
      match unpackI32 d (p + 1) with
      | none => .error .oob
      | some v => .ok (v, p + 5)
    else if tag = 3 then
      match unpackI64 d (p + 1) with
      | none => .error .oob
      | some v => .ok (v, p + 9)
    else if tag = 4 then
      match unpackU32 d (p + 1) with
      | none => .error .oob
      | some v => .ok ((v : Int), p + 5)
    else if tag = 5 then
      match unpackU64 d (p + 1) with
      | none => .error .oob
      | some v => .ok ((v : Int), p + 9)
    else if 0x80 ≤ tag then .ok (((tag - 128 : Nat) : Int), p + 1)
    else .error .badTag

/-- Key sentinel of the index field. -/
def indexSent : List Nat := [0x05] ++ asciiBytes "index"

/-- Key sentinel of the role field. -/
def roleSent : List Nat := [0x04] ++ asciiBytes "role"

/-- Loop exit of parse_role_lookup: with a declared count, a row total other
than the declared value raises the truncated-or-corrupt RuntimeError. -/
def rlFinish (declared : Option Nat) (rows : List RlRow) : Except RlErr (List RlRow) :=
  match declared with
  | some dcl => if rows.length ≠ dcl then .error .truncated else .ok rows
  | none => .ok rows

/-- Main scan loop of parse_role_lookup.  fuel is instantiated with one more
than the data length; each iteration moves the cursor strictly forward and
never past the data length, so the fuel-zero branch returns the loop-exit
value and is unreachable from the top-level entry. -/
def rlLoop (d : List Nat) (declared : Option Nat) :
    Nat → Nat → List RlRow → Except RlErr (List RlRow)
  | 0, _, rows => rlFinish declared rows
  | fuel + 1, cur, rows =>
    match findSub d indexSent cur with
    | none => rlFinish declared rows
    | some idxOff =>
      match rlReadInt d (idxOff + 6) with
      | .error e => .error e
      | .ok (indexV, posAfterIdx) =>
        match findSub d roleSent posAfterIdx with
        | none => .error .sentinelMissing
        | some roleOff =>
          match rlReadInt d (roleOff + 5) with
          | .error e => .error e
          | .ok (roleV, posAfterRole) =>
            let rows2 := rows ++ [⟨indexV, roleV⟩]
            match declared with
            | some dcl =>
              if dcl ≤ rows2.length then rlFinish declared rows2
              else rlLoop d declared fuel posAfterRole rows2
            | none => rlLoop d declared fuel posAfterRole rows2

/-- Unbounded variant of the role_lookup scan: the same traversal without
the declared-count stop, collecting every index and role pair the scan can
reach.  Used to state how many matching rows the scanned range holds. -/
def rlScanAll (d : List Nat) : Nat → Nat → List RlRow → Except RlErr (List RlRow)
  | 0, _, rows => .ok rows
  | fuel + 1, cur, rows =>
    match findSub d indexSent cur with
    | none => .ok rows
    | some idxOff =>
      match rlReadInt d (idxOff + 6) with
      | .error e => .error e
      | .ok (indexV, posAfterIdx) =>
        match findSub d roleSent posAfterIdx with
        | none => .error .sentinelMissing
        | some roleOff =>
          match rlReadInt d (roleOff + 5) with
          | .error e => .error e
          | .ok (roleV, posAfterRole) =>
            rlScanAll d fuel posAfterRole (rows ++ [⟨indexV, roleV⟩])

/-- Container handling of parse_role_lookup: key check, then object
containers give no declared count while the 0x09 array container reads a
4-byte little-endian declared element count. -/
def rlHead (buf : List Nat) (start : Nat) : Except RlErr (Option Nat × Nat) :=
  if pySlice buf start 16 = asciiBytes "role_lookup_data" then
    match buf[start + 16]? with
    | none => .error .oob
    | some ctag =>
      if ctag = 0xC9 ∨ ctag = 0x99 then .ok (none, start + 17)
      else if ctag = 0x09 then
        match unpackU32 buf (start + 17) with
        | none => .error .oob
        | some dcl => .ok (some dcl, start + 21)
      else .error .badContainer
  else .error .keyMissing

/-- parse_role_lookup: decode the role_lookup_data table between start and
stop, respecting a declared array count when present. -/
def parse_role_lookup (buf : List Nat) (start stop : Nat) : Except RlErr (List RlRow) :=
  match rlHead buf start with
  | .error e => .error e
  | .ok (declared, body) =>
    let d := pySlice buf body (stop - body)
    rlLoop d declared (d.length + 1) 0 []

/-- The unbounded scan entered from the same container handling. -/
def role_lookup_all (buf : List Nat) (start stop : Nat) : Except RlErr (List RlRow) :=
  match rlHead buf start with
  | .error e => .error e
  | .ok (_, body) =>
    let d := pySlice buf body (stop - body)
    rlScanAll d (d.length + 1) 0 []

/-! ## Physics decoder helpers (src/physics_decode_jsb.py) -/

/-- Membership in the ASCII_OK set: letters, digits and underscore. -/
def asciiOKByte (b : Nat) : Bool :=
  decide (48 ≤ b ∧ b ≤ 57) || decide (65 ≤ b ∧ b ≤ 90) ||
  decide (97 ≤ b ∧ b ≤ 122) || decide (b = 95)

/-- Worker of find_indicator, structurally recursive on the distance from
pos to the end of the buffer. -/
def findIndicatorK (jsb : List Nat) : Nat → Nat → Nat
  | 0, pos => pos
  | k + 1, pos =>
    match jsb[pos]? with
    | none => pos
    | some b => if asciiOKByte b then findIndicatorK jsb k (pos + 1) else pos

/-- find_indicator: index of the first byte at or after pos outside the
ASCII_OK set. -/
def find_indicator (jsb : List Nat) (pos : Nat) : Nat :=
  findIndicatorK jsb (jsb.length - pos) pos

/-- int_size: 4 for the full 32-bit indicator 0x02, 1 for a compressed
indicator with bit 7 set and low nibble 2, otherwise unrecognised. -/
def int_size (ind : Nat) : Option Nat :=
  if ind = 2 then some 4
  else if ind.testBit 7 ∧ ind % 16 = 2 then some 1
  else none

/-- Result of the grab helper: err is the IndexError raised when the
indicator scan runs to the end of the buffer, skip is the None return for an
unrecognised indicator or a short value blob, val carries the decoded
integer. -/
inductive GrabRes
  | err
  | skip
  | val (v : Int)
  deriving DecidableEq, Repr

/-- The grab helper of decode_physical_constraints: find the indicator byte
from loc, size it, and read the value blob with the unsigned little-endian
int.from_bytes conversion. -/
def grab (jsb : List Nat) (loc : Nat) : GrabRes :=
  let indPos := find_indicator jsb loc
  match jsb[indPos]? with
  | none => .err
  | some ind =>
    match int_size ind with
    | none => .skip
    | some size =>
      let blob := pySlice jsb (indPos + 1) size
      if blob.length ≠ size then .skip
      else .val ((leNat blob : Nat) : Int)

/-! ## Consistency verifier (verify_physical_constraints) -/

/-- Outcome of the expected-value check: the returned flag plus the keys
reported as WARN and FAIL lines. -/
structure VerifyOut where
  ok : Bool
  warns : List String
  fails : List String
  deriving DecidableEq, Repr

/-- One iteration of the verify loop for a desired key and expected value:
pass when at least one copy matches, with a warning when the copies differ,
fail (and clear the flag) when no copy matches. -/
def verifyStep (obj1 obj2 : List (String × Int)) (st : VerifyOut) (e : String × Int) :
    VerifyOut :=
  let v1 := obj1.lookup e.1
  let v2 := obj2.lookup e.1
  if v1 = some e.2 ∨ v2 = some e.2 then
    if v1 ≠ v2 then ⟨st.ok, st.warns ++ [e.1], st.fails⟩ else st
  else ⟨false, st.warns, st.fails ++ [e.1]⟩

/-- verify_physical_constraints with the two decoded copies and the
desired-values mapping as inputs: fold the per-key check over the desired
items in order. -/
def verify_physical_constraints (desired obj1 obj2 : List (String × Int)) : VerifyOut :=
  desired.foldl (verifyStep obj1 obj2) ⟨true, [], []⟩

/-! ## Binary patcher (patch_physical_constraints of prepare_simatch.py) -/

/-- Warnings printed by the patch loop. -/
inductive Warn
  | unknownKey (k : String)
  | badIndicator (k : String) (b : Nat)
  deriving DecidableEq, Repr

/-- The field name a warning names. -/
def Warn.key : Warn → String
  | .unknownKey k => k
  | .badIndicator k _ => k

/-- The ignored_keys set of patch_physical_constraints. -/
def ignored_keys : List String :=
  ["version_year", "version_major", "version_minor", "version_release"]

/-- int.to_bytes(4, little, unsigned): the four little-endian bytes, or an
OverflowError (none) for a negative value or one of 2 to the 32 or more. -/
def encodeLE4 (v : Int) : Option (List Nat) :=
  if 0 ≤ v ∧ v < 4294967296 then
    some [v.toNat % 256, v.toNat / 256 % 256, v.toNat / 65536 % 256,
      v.toNat / 16777216 % 256]
  else none

/-- Python bytearray slice assignment b[s : s + len v] = v: both slice ends
clamp to the buffer length, so a write near the end replaces the clamped
range and extends the buffer. -/
def writeBytes (b : List Nat) (s : Nat) (v : List Nat) : List Nat :=
  b.take s ++ v ++ b.drop (s + v.length)

/-- Occurrence loop of the patcher for one edit: for each offset, read the
indicator byte at offset plus key length (an IndexError aborts the whole
patch), warn and skip when it is not 0x02, otherwise encode the value (an
OverflowError aborts) and overwrite the four bytes after the indicator. -/
def patchOccs (k : String) (v : Int) :
    List Nat → List Nat × List Warn → Option (List Nat × List Warn)
  | [], st => some st
  | l :: rest, st =>
    let p := l + k.length
    match st.1[p]? with
    | none => none
    | some ind =>
      if ind ≠ 2 then patchOccs k v rest (st.1, st.2 ++ [.badIndicator k ind])
      else
        match encodeLE4 v with
        | none => none
        | some vb => patchOccs k v rest (writeBytes st.1 (p + 1) vb, st.2)

/-- One edit of the patch loop: ignored keys are skipped outright, keys
missing from the offsets table produce a warning, table keys run the
occurrence loop. -/
def patchStep (table : List (String × List Nat)) (st : List Nat × List Warn)
    (e : String × Int) : Option (List Nat × List Warn) :=
  if ignored_keys.contains e.1 then some st
  else
    match table.lookup e.1 with
    | none => some (st.1, st.2 ++ [.unknownKey e.1])
    | some offs => patchOccs e.1 e.2 offs st

/-- Fold of the patch loop over the edits in mapping order. -/
def patchGo (table : List (String × List Nat)) :
    List (String × Int) → List Nat × List Warn → Option (List Nat × List Warn)
  | [], st => some st
  | e :: rest, st =>
    match patchStep table st e with
    | none => none
    | some st2 => patchGo table rest st2

/-- The patch operation over a given offsets table: apply every edit to the
buffer, collecting warnings; none models the exception handler path in which
nothing is written back. -/
def patchEdits (table : List (String × List Nat)) (edits : List (String × Int))
    (buf : List Nat) : Option (List Nat × List Warn) :=
  patchGo table edits (buf, [])

/-- Buffer component of the patch result. -/
def patchBuf (table : List (String × List Nat)) (edits : List (String × Int))
    (buf : List Nat) : Option (List Nat) :=
  (patchEdits table edits buf).map Prod.fst

/-- The hardcoded offsets table of prepare_simatch.py: field name to the
byte offsets of its two occurrences (loc and loc2), each the first byte
of the key text at that occurrence. -/
def physical_constraints_offsets : List (String × List Nat) := [
  ("acceleration_scaler", [22, 2845]),
  ("base_top_speed", [47, 2870]),
  ("basic_header_speed", [67, 2890]),
  ("fast_jog_speed", [91, 2914]),
  ("fast_walk_speed", [111, 2934]),
  ("hard_kick_speed", [132, 2955]),
  ("jog_speed", [153, 2976]),
  ("medium_kick_speed", [168, 2991]),
  ("medium_to_moderate_kick_speed", [191, 3014]),
  ("min_delay_for_ball_lunge_do", [226, 3049]),
  ("min_delay_for_ball_lunge_receive", [259, 3082]),
  ("min_delay_for_block_tackle_do", [297, 3120]),
  ("min_delay_for_block_tackle_receive", [332, 3155]),
  ("min_delay_for_celebrating_a_goal", [372, 3195]),
  ("min_delay_for_deflect_ball_do", [410, 3233]),
  ("min_delay_for_deflect_ball_receive", [445, 3268]),
  ("min_delay_for_diving_header", [485, 3308]),
  ("min_delay_for_foot_up_in_tackle_do", [518, 3341]),
  ("min_delay_for_foot_up_in_tackle_receive", [558, 3381]),
  ("min_delay_for_force_opponent_to_lose_ball_do", [603, 3426]),
  ("min_delay_for_force_opponent_to_lose_ball_receive", [653, 3476]),
  ("min_delay_for_getting_injured", [708, 3531]),
  ("min_delay_for_normal_header", [743, 3566]),
  ("min_delay_for_obstruct_do", [776, 3599]),
  ("min_delay_for_obstruct_receive", [807, 3630]),
  ("min_delay_for_player_stop_to_avoid_collision", [843, 3666]),
  ("min_delay_for_push_opponen_receive", [893, 3716]),
  ("min_delay_for_push_opponent_do", [933, 3756]),
  ("min_delay_for_shirt_tug_do", [969, 3792]),
  ("min_delay_for_shirt_tug_receive", [997, 3820]),
  ("min_delay_for_shoulder_charge_do", [1034, 3857]),
  ("min_delay_for_shoulder_charge_receive", [1072, 3895]),
  ("min_delay_for_slide_tackle_do", [1115, 3938]),
  ("min_delay_for_slide_tackle_receive", [1150, 3973]),
  ("min_delay_for_trip_do", [1190, 4013]),
  ("min_delay_for_trip_receive", [1217, 4040]),
  ("min_delay_for_two_footed_tackle_do", [1249, 4072]),
  ("min_delay_for_two_footed_tackle_receive", [1289, 4112]),
  ("min_delay_for_violent_act_do", [1334, 4157]),
  ("min_delay_for_violent_act_receive", [1368, 4191]),
  ("min_delay_keeper_drop_ball_for_distribution", [1407, 4230]),
  ("min_delay_keeper_save_dive_and_hold_ball", [1456, 4279]),
  ("min_delay_keeper_save_dive_but_not_held", [1502, 4325]),
  ("min_delay_keeper_save_intentionally_drop_ball", [1547, 4370]),
  ("min_delay_keeper_save_no_dive_hold_ball", [1598, 4421]),
  ("min_delay_keeper_save_no_dive_not_held", [1643, 4466]),
  ("min_delay_keeper_save_with_outreached_foot", [1687, 4510]),
  ("min_extra_delay_for_falling_down_before_injury", [1735, 4558]),
  ("version_major", [1803, 4626]),
  ("version_minor", [1818, 4641]),
  ("version_release", [1833, 4656]),
  ("version_year", [1850, 4673]),
  ("moderate_jog_speed", [1868, 4687]),
  ("moderate_kick_speed", [1892, 4711]),
  ("quite_hard_kick_speed", [1917, 4736]),
  ("run_speed", [1944, 4763]),
  ("slow_jog_speed", [1959, 4778]),
  ("slow_walk_speed", [1979, 4798]),
  ("soft_kick_speed", [2000, 4819]),
  ("soft_to_medium_kick_speed", [2021, 4840]),
  ("speed_scaler", [2052, 4871]),
  ("sprint_speed", [2070, 4889]),
  ("theoretical_max_acceleration", [2088, 4907]),
  ("theoretical_max_deceleration", [2122, 4941]),
  ("theoretical_max_diving_acceleration", [2156, 4975]),
  ("theoretical_max_diving_speed", [2197, 5016]),
  ("theoretical_max_potential_direction_change_jog", [2231, 5050]),
  ("theoretical_max_potential_direction_change_run", [2283, 5102]),
  ("theoretical_max_potential_direction_change_walk", [2335, 5154]),
  ("theoretical_max_running_speed", [2388, 5207]),
  ("theoretical_max_turning_rate", [2423, 5242]),
  ("theoretical_min_acceleration", [2457, 5276]),
  ("theoretical_min_deceleration", [2491, 5310]),
  ("theoretical_min_diving_acceleration", [2525, 5344]),
  ("theoretical_min_diving_speed", [2566, 5385]),
  ("theoretical_min_potential_direction_change_jog", [2600, 5419]),
  ("theoretical_min_potential_direction_change_run", [2652, 5471]),
  ("theoretical_min_potential_direction_change_walk", [2704, 5523]),
  ("top_speed", [2757, 5576]),
  ("very_hard_kick_speed", [2772, 5591]),
  ("very_slow_walk_speed", [2798, 5617]),
  ("walk_speed", [2824, 5643])
]

/-! ## Offsets-table geometry -/

/-- Flattened non-ignored occurrences of an offsets table: pairs of field
name and occurrence offset.  The value window of an occurrence (k, l) is the
half-open interval from l + k.length + 1 to l + k.length + 5 and its
indicator byte sits at l + k.length. -/
def occPairs (table : List (String × List Nat)) : List (String × Nat) :=
  (table.filter (fun e => !ignored_keys.contains e.1)).flatMap
    (fun e => e.2.map (fun l => (e.1, l)))

/-- Flattened occurrences of the ignored version fields, as pairs of key
length and occurrence offset. -/
def versionOccs (table : List (String × List Nat)) : List (Nat × Nat) :=
  (table.filter (fun e => ignored_keys.contains e.1)).flatMap
    (fun e => e.2.map (fun l => (e.1.length, l)))

/-- Geometric compatibility of two occurrences given as key length and
offset: their value windows are disjoint and neither indicator byte lies
inside the other window. -/
def occOK (a b : Nat × Nat) : Prop :=
  (a.2 + a.1 + 5 ≤ b.2 + b.1 + 1 ∨ b.2 + b.1 + 5 ≤ a.2 + a.1 + 1) ∧
  ¬ (b.2 + b.1 + 1 ≤ a.2 + a.1 ∧ a.2 + a.1 < b.2 + b.1 + 5) ∧
  ¬ (a.2 + a.1 + 1 ≤ b.2 + b.1 ∧ b.2 + b.1 < a.2 + a.1 + 5)

/-- Well-formedness of an offsets table: any two distinct non-ignored
occurrences are geometrically compatible. -/
def TableOK (table : List (String × List Nat)) : Prop :=
  (occPairs table).Pairwise (fun a b => occOK (a.1.length, a.2) (b.1.length, b.2))

/-- Version occurrences kept clear of every non-ignored value window: the
whole byte range of each version occurrence is disjoint from every window the
patcher can write. -/
def VersionSafe (table : List (String × List Nat)) : Prop :=
  ∀ a ∈ versionOccs table, ∀ b ∈ occPairs table,
    a.2 + a.1 + 5 ≤ b.2 + b.1.length + 1 ∨ b.2 + b.1.length + 5 ≤ a.2

/-- A position q lies in the value window of some occurrence of a non-ignored
table key appearing in the edits. -/
def inEditWindows (table : List (String × List Nat)) (edits : List (String × Int))
    (q : Nat) : Bool :=
  edits.any fun e =>
    !ignored_keys.contains e.1 &&
      (match table.lookup e.1 with
       | some offs => offs.any fun l =>
           decide (l + e.1.length + 1 ≤ q ∧ q < l + e.1.length + 5)
       | none => false)

/-- A position q lies in the value window of an occurrence of a non-ignored
table key in the edits whose indicator byte in buf is the int32 marker, that
is, a window the patch run will actually overwrite. -/
def inWrittenWindows (table : List (String × List Nat)) (edits : List (String × Int))
    (buf : List Nat) (q : Nat) : Bool :=
  edits.any fun e =>
    !ignored_keys.contains e.1 &&
      (match table.lookup e.1 with
       | some offs => offs.any fun l =>
           decide (l + e.1.length + 1 ≤ q ∧ q < l + e.1.length + 5) &&
           decide (buf[l + e.1.length]? = some 2)
       | none => false)

/-! ## Claim statements quoted for refutation -/

/-- Claim C1 as stated, at a given table, buffer and edits mapping: every
occurrence of every edited field is either skipped with a warning and its
indicator and value bytes left unmodified, or (when the indicator is 0x02)
its four value bytes are overwritten with the little-endian encoding. -/
def PatchClaimC1 (table : List (String × List Nat)) (buf : List Nat)
    (edits : List (String × Int)) : Prop :=
  ∀ out, patchEdits table edits buf = some out →
    ∀ k v, (k, v) ∈ edits → ∀ offs, table.lookup k = some offs → ∀ l ∈ offs,
      (buf[l + k.length]? ≠ some 2 →
        (∃ b, buf[l + k.length]? = some b ∧ Warn.badIndicator k b ∈ out.2) ∧
        (∀ j < 5, out.1[l + k.length + j]? = buf[l + k.length + j]?)) ∧
      (buf[l + k.length]? = some 2 →
        ∃ vb, encodeLE4 v = some vb ∧ pySlice out.1 (l + k.length + 1) 4 = vb)

/-- Claim C3 as stated: the buffer produced by the patch operation always has
the length of the input buffer. -/
def PatchClaimC3 : Prop :=
  ∀ buf edits out, patchEdits physical_constraints_offsets edits buf = some out →
    out.1.length = buf.length

/-- Claim C4 as stated: under an array container with declared count dcl,
when the scanned range holds at least dcl matching rows the parser returns
exactly the first dcl of them, and when it holds fewer the parser raises the
truncated-or-corrupt error. -/
def RlClaimC4 : Prop :=
  ∀ buf start stop dcl body all,
    rlHead buf start = .ok (some dcl, body) →
    role_lookup_all buf start stop = .ok all →
    (dcl ≤ all.length → parse_role_lookup buf start stop = .ok (all.take dcl)) ∧
    (all.length < dcl → parse_role_lookup buf start stop = .error .truncated)

/-- Claim C6 as stated: at every malformed key header, in either encoding,
the reader advances exactly one byte and retries. -/
def TokClaimC6 : Prop :=
  ∀ buf i n, i + 2 < n →
    (∃ m, buf[i]? = some m ∧
      ((sentinelByte m = false ∧ (m = 0 ∨ 96 < m)) ∨
       (sentinelByte m = true ∧ ∃ kl, buf[i + 1]? = some kl ∧ (kl = 0 ∨ 96 < kl)))) →
    tokNext buf i n = tokNext buf (i + 1) n

/-- Claim C7 as stated for the physical-constraints decoder: a value behind a
0x02 indicator decodes to a negative number whenever the top bit of its
fourth byte is set. -/
def GrabClaimC7 : Prop :=
  ∀ jsb loc v b3, grab jsb loc = .val v →
    jsb[find_indicator jsb loc]? = some 2 →
    (pySlice jsb (find_indicator jsb loc + 1) 4)[3]? = some b3 →
    128 ≤ b3 → v < 0

/-! ## Concrete buffers used by counterexamples and witnesses -/

/-- A well-formed expected_score row with name AB and multipliers 10, 20. -/
def esRowClean : List Nat :=
  [4] ++ asciiBytes "name" ++ [0x82, 65, 66] ++
  [19] ++ asciiBytes "negative_multiplier" ++ [2, 10, 0, 0, 0] ++
  [19] ++ asciiBytes "positive_multiplier" ++ [2, 20, 0, 0, 0]

/-- An expected_score_data section whose first row name token carries one
spurious trailing byte 0x13 (a control character, doubling as the key-length
byte of the following token), followed by ten clean rows. -/
def esBufC2 : List Nat :=
  asciiBytes "expected_score_data" ++ [0xC9] ++
  ([4] ++ asciiBytes "name" ++ [0x83, 65, 66, 19] ++
   asciiBytes "negative_multiplier" ++ [2, 10, 0, 0, 0] ++
   [19] ++ asciiBytes "positive_multiplier" ++ [2, 20, 0, 0, 0]) ++
  (List.replicate 10 esRowClean).flatten

/-- Buffer whose first header is a sentinel byte with a malformed declared
length: 0x2A announces a length byte 0x6A = 106 > 96.  The code resumes at
offset 2 (another sentinel header leading to a one-byte key A and an int32
value), while resuming at offset 1 would treat 0x6A as a sentinel with
declared length 0x2A = 42 and run off the buffer. -/
def tokBufC6 : List Nat :=
  [0x2A, 0x6A, 0x2A, 0x01, 0x41, 0x02, 7, 0, 0, 0]

/-- role_lookup_data array container declaring 0 rows but holding one
matching index and role pair. -/
def rlBufZero : List Nat :=
  asciiBytes "role_lookup_data" ++ [0x09, 0, 0, 0, 0] ++
  indexSent ++ [0x85] ++ roleSent ++ [0x85]

/-- role_lookup_data array container declaring 2 rows and holding three
matching index and role pairs. -/
def rlBufThree : List Nat :=
  asciiBytes "role_lookup_data" ++ [0x09, 2, 0, 0, 0] ++
  indexSent ++ [0x85] ++ roleSent ++ [0x95] ++
  indexSent ++ [0x86] ++ roleSent ++ [0x96] ++
  indexSent ++ [0x87] ++ roleSent ++ [0x97]

/-- One role_data entry with an empty label and tiny-positive value 5. -/
def rdEntry : List Nat := nameSent ++ valueSent ++ [0x85]

/-- role_data section with an object container and 53 entries: one full block
of 52 and a trailing fragment of one. -/
def rdBufC9 : List Nat :=
  asciiBytes "role_data" ++ [0xC9] ++ (List.replicate 53 rdEntry).flatten

/-- Buffer sized so that patching acceleration_scaler succeeds while its
second value window sticks one byte past the end: the indicator byte of the
first occurrence (position 41) is 0, skipping it, and the indicator byte of
the second occurrence (position 2864) is 2, so the write extends the
buffer. -/
def patchBufC3 : List Nat :=
  List.replicate 2864 0 ++ [2]

/-- Buffer long enough to reach the first version_major occurrence with its
indicator byte set to 2 and zeroed value bytes. -/
def patchBufC1 : List Nat :=
  List.replicate 1816 0 ++ [2, 0, 0, 0, 0]

/-- One-entry offsets table used to witness the generic patcher theorems. -/
def tinyTable : List (String × List Nat) := [("k", [0])]

/-- Six-byte buffer for the tiny table: indicator byte 2 at position 1,
value window bytes 7 at positions 2 to 5. -/
def tinyBuf : List Nat := [9, 2, 7, 7, 7, 7]

/-- Buffer covering both acceleration_scaler occurrences of the real table,
every byte 2 so both indicator reads see the int32 marker. -/
def patchBufC8 : List Nat := List.replicate 2869 2


/-- Decidability of the occurrence compatibility test. -/
instance instDecOccOK (a b : Nat × Nat) : Decidable (occOK a b) := by
  unfold occOK; exact inferInstance

/-- Decidability of table well-formedness. -/
instance instDecTableOK (table : List (String × List Nat)) : Decidable (TableOK table) := by
  unfold TableOK; exact inferInstance

/-- Decidability of the version-occurrence safety test. -/
instance instDecVersionSafe (table : List (String × List Nat)) :
    Decidable (VersionSafe table) := by
  unfold VersionSafe; exact inferInstance

/-- The buffer obtained from patchBufC8 by patching acceleration_scaler to 7:
both value windows hold the little-endian bytes of 7. -/
def patchBufC8out : List Nat :=
  List.replicate 42 2 ++ [7, 0, 0, 0] ++ List.replicate 2819 2 ++ [7, 0, 0, 0]

/-! ## General lemmas -/

/-- Unfolding equation of tokNext at a live position, phrased directly on
cursors. -/
theorem tokNext_unfold (buf : List Nat) (i n : Nat) (h : i + 2 < n) :
    tokNext buf i n =
      match buf[i]? with
      | none => .err
      | some mark =>
        if sentinelByte mark then
          match buf[i + 1]? with
          | none => .err
          | some klen =>
            if 0 < klen ∧ klen ≤ 96 then
              readVal buf (pySlice buf (i + 2) klen) (i + 2 + klen)
            else
              tokNext buf (i + 2) n
        else if 0 < mark ∧ mark ≤ 96 then
          readVal buf (pySlice buf (i + 1) mark) (i + 1 + mark)
        else
          tokNext buf (i + 1) n := by
  have hk : n - i = n - i - 3 + 3 := by omega
  have hi : n - (n - i - 3 + 3) = i := by omega
  have h1 : n - i - 3 + 2 = n - (i + 1) := by omega
  have h2 : n - i - 3 + 1 = n - (i + 2) := by omega
  conv_lhs => rw [tokNext, hk]
  simp only [tokNextK]
  rw [hi, h1, h2]
  simp only [tokNext]

/-- tokNext at an exhausted position: fewer than three bytes to the stop
bound means the generator is done. -/
theorem tokNext_stop (buf : List Nat) (i n : Nat) (h : ¬ i + 2 < n) :
    tokNext buf i n = .eof := by
  have hk : n - i = 0 ∨ n - i = 1 ∨ n - i = 2 := by omega
  rcases hk with hk | hk | hk <;> simp only [tokNext, hk, tokNextK]

/-! ## Claim C5: the expected-value check -/

theorem verify_ok_iff_fails (obj1 obj2 : List (String × Int)) (desired : List (String × Int))
    (st : VerifyOut) (h : st.ok = true ↔ st.fails = []) :
    ((desired.foldl (verifyStep obj1 obj2) st).ok = true ↔
      (desired.foldl (verifyStep obj1 obj2) st).fails = []) := by
  induction desired generalizing st with
  | nil => simpa using h
  | cons e tl ih =>
    simp only [List.foldl_cons]
    apply ih
    simp only [verifyStep]
    split_ifs <;> simp_all

theorem verify_mem_stable (obj1 obj2 : List (String × Int)) (key : String)
    (desired : List (String × Int)) (st : VerifyOut)
    (hkey : key ∉ desired.map Prod.fst) :
    (key ∈ (desired.foldl (verifyStep obj1 obj2) st).fails ↔ key ∈ st.fails) ∧
    (key ∈ (desired.foldl (verifyStep obj1 obj2) st).warns ↔ key ∈ st.warns) := by
  induction desired generalizing st with
  | nil => simp
  | cons e tl ih =>
    simp only [List.map_cons, List.mem_cons] at hkey
    push_neg at hkey
    simp only [List.foldl_cons]
    have step := ih (verifyStep obj1 obj2 st e) hkey.2
    refine ⟨step.1.trans ?_, step.2.trans ?_⟩ <;>
    · simp only [verifyStep]
      split_ifs <;> simp [hkey.1, Ne.symm hkey.1]

theorem verify_field (desired obj1 obj2 : List (String × Int)) (key : String) (exp : Int)
    (st : VerifyOut) :
    (desired.map Prod.fst).Nodup → (key, exp) ∈ desired →
    key ∉ st.fails → key ∉ st.warns →
    (key ∈ (desired.foldl (verifyStep obj1 obj2) st).fails ↔
      ¬ (obj1.lookup key = some exp ∨ obj2.lookup key = some exp)) ∧
    (key ∈ (desired.foldl (verifyStep obj1 obj2) st).warns ↔
      ((obj1.lookup key = some exp ∨ obj2.lookup key = some exp) ∧
        obj1.lookup key ≠ obj2.lookup key)) := by
  induction desired generalizing st with
  | nil => intro _ hmem _ _; simp at hmem
  | cons e tl ih =>
    intro hnd hmem hf hw
    simp only [List.map_cons, List.nodup_cons] at hnd
    rcases List.mem_cons.mp hmem with heq | htl
    · have he1 : e = (key, exp) := heq.symm ▸ rfl
      subst he1
      simp only [List.foldl_cons]
      have hstable :=
        verify_mem_stable obj1 obj2 key tl (verifyStep obj1 obj2 st (key, exp)) hnd.1
      refine ⟨hstable.1.trans ?_, hstable.2.trans ?_⟩ <;>
      · simp only [verifyStep]
        split_ifs with h1 h2 <;> simp_all
    · have hne : e.1 ≠ key := by
        intro h
        exact hnd.1 (h ▸ List.mem_map.mpr ⟨(key, exp), htl, rfl⟩)
      simp only [List.foldl_cons]
      apply ih (verifyStep obj1 obj2 st e) hnd.2 htl <;>
      · simp only [verifyStep]
        split_ifs <;> simp_all [Ne.symm hne]

/-- Claim C5: for every desired-values mapping, the expected-value check
passes a field exactly when at least one of the two decoded copies equals the
expected value; when the copies disagree but one matches, only a warning is
emitted and the overall flag is not cleared; when neither copy matches the
field is reported as a failure, and the check returns pass exactly when no
field failed. -/
theorem c5_expected_value_check (desired obj1 obj2 : List (String × Int))
    (key : String) (exp : Int)
    (hnd : (desired.map Prod.fst).Nodup) (hmem : (key, exp) ∈ desired) :
    (key ∈ (verify_physical_constraints desired obj1 obj2).fails ↔
      ¬ (obj1.lookup key = some exp ∨ obj2.lookup key = some exp)) ∧
    (key ∈ (verify_physical_constraints desired obj1 obj2).warns ↔
      ((obj1.lookup key = some exp ∨ obj2.lookup key = some exp) ∧
        obj1.lookup key ≠ obj2.lookup key)) ∧
    ((verify_physical_constraints desired obj1 obj2).ok = true ↔
      (verify_physical_constraints desired obj1 obj2).fails = []) := by
  have hfield :=
    verify_field desired obj1 obj2 key exp ⟨true, [], []⟩ hnd hmem (by simp) (by simp)
  exact ⟨hfield.1, hfield.2, verify_ok_iff_fails obj1 obj2 desired ⟨true, [], []⟩ (by simp)⟩

/-- Witness for claim C5, at the spec scenario: copies disagree on X (100
versus 200), expectation 100 passes X with a warning, while the absent match
for Y at 300 fails and clears the flag. -/
theorem c5_expected_value_check_witness :
    (([(("X" : String), (100 : Int)), ("Y", 300)].map Prod.fst).Nodup ∧
      (("X", (100 : Int)) ∈ [(("X" : String), (100 : Int)), ("Y", 300)])) ∧
    (("X" ∈ (verify_physical_constraints [("X", 100), ("Y", 300)]
        [("X", 100)] [("X", 200)]).fails ↔
      ¬ ([(("X" : String), (100 : Int))].lookup "X" = some 100 ∨
         [(("X" : String), (200 : Int))].lookup "X" = some 100)) ∧
     ("X" ∈ (verify_physical_constraints [("X", 100), ("Y", 300)]
        [("X", 100)] [("X", 200)]).warns ↔
      (([(("X" : String), (100 : Int))].lookup "X" = some 100 ∨
         [(("X" : String), (200 : Int))].lookup "X" = some 100) ∧
        [(("X" : String), (100 : Int))].lookup "X" ≠
          [(("X" : String), (200 : Int))].lookup "X")) ∧
     ((verify_physical_constraints [("X", 100), ("Y", 300)]
        [("X", 100)] [("X", 200)]).ok = true ↔
      (verify_physical_constraints [("X", 100), ("Y", 300)]
        [("X", 100)] [("X", 200)]).fails = [])) :=
  ⟨⟨by decide, by decide⟩,
    c5_expected_value_check [("X", 100), ("Y", 300)] [("X", 100)] [("X", 200)]
      "X" 100 (by decide) (by decide)⟩


/-! ## Claim C6: malformed key headers -/

theorem tokNext_skip_inline (buf : List Nat) (i n m : Nat) (h : i + 2 < n)
    (hm : buf[i]? = some m) (hs : sentinelByte m = false) (hbad : m = 0 ∨ 96 < m) :
    tokNext buf i n = tokNext buf (i + 1) n := by
  rw [tokNext_unfold buf i n h, hm]
  simp only [hs, Bool.false_eq_true, if_false]
  have : ¬ (0 < m ∧ m ≤ 96) := by omega
  simp [this]

theorem tokNext_skip_sentinel (buf : List Nat) (i n m kl : Nat) (h : i + 2 < n)
    (hm : buf[i]? = some m) (hs : sentinelByte m = true)
    (hk : buf[i + 1]? = some kl) (hbad : kl = 0 ∨ 96 < kl) :
    tokNext buf i n = tokNext buf (i + 2) n := by
  rw [tokNext_unfold buf i n h, hm]
  simp only [hs, if_true]
  rw [hk]
  have : ¬ (0 < kl ∧ kl ≤ 96) := by omega
  simp [this]

/-- Claim C6 counterexample: at the buffer starting with a sentinel header
whose declared key length is 106, the reader resumes two bytes later, and
resuming one byte later (as the claim states) gives a different outcome. -/
theorem c6_counterexample :
    ¬ TokClaimC6 := by
  intro h
  have inst := h tokBufC6 0 10 (by decide)
    ⟨0x2A, by decide, Or.inr ⟨by decide, ⟨0x6A, by decide, by decide⟩⟩⟩
  revert inst
  decide

/-- Claim C6 as amended: a malformed inline-length header (length byte 0 or
above 96 that is not a sentinel) makes the reader advance exactly one byte
and retry; a sentinel header with a malformed declared length makes it
advance past the sentinel and the length byte, two bytes in total; in both
cases the malformed header raises nothing and scanning just continues. -/
theorem c6_malformed_header_skip (buf : List Nat) (i n m : Nat) (h : i + 2 < n)
    (hm : buf[i]? = some m) :
    (sentinelByte m = false → (m = 0 ∨ 96 < m) →
      tokNext buf i n = tokNext buf (i + 1) n) ∧
    (∀ kl, sentinelByte m = true → buf[i + 1]? = some kl → (kl = 0 ∨ 96 < kl) →
      tokNext buf i n = tokNext buf (i + 2) n) :=
  ⟨fun hs hbad => tokNext_skip_inline buf i n m h hm hs hbad,
   fun kl hs hk hbad => tokNext_skip_sentinel buf i n m kl h hm hs hk hbad⟩

/-- Witness for the amended claim C6: a header byte 200 is skipped in one
byte, and the sentinel header of the counterexample buffer is skipped in
two. -/
theorem c6_malformed_header_skip_witness :
    (((0 : Nat) + 2 < 4 ∧ ([200, 5, 5, 5] : List Nat)[0]? = some 200) ∧
      tokNext [200, 5, 5, 5] 0 4 = tokNext [200, 5, 5, 5] 1 4) ∧
    (((0 : Nat) + 2 < 10 ∧ tokBufC6[0]? = some 0x2A) ∧
      tokNext tokBufC6 0 10 = tokNext tokBufC6 2 10) :=
  ⟨⟨⟨by decide, by decide⟩,
    (c6_malformed_header_skip [200, 5, 5, 5] 0 4 200 (by decide) (by decide)).1
      (by decide) (by decide)⟩,
   ⟨⟨by decide, by decide⟩,
    (c6_malformed_header_skip tokBufC6 0 10 0x2A (by decide) (by decide)).2
      0x6A (by decide) (by decide) (by decide)⟩⟩

/-! ## Claim C7: int32 decoding -/

/-- Claim C7 counterexample: the physical-constraints decoder applied to a
0x02-marked value whose fourth byte has the top bit set returns the large
positive 2147483648, not a negative number. -/
theorem c7_counterexample : ¬ GrabClaimC7 := by
  intro h
  exact absurd
    (h [2, 0, 0, 0, 128] 0 2147483648 128 (by decide) (by decide) (by decide) (by decide))
    (by decide)

/-- Claim C7 as amended: the token stream reader decodes a value behind the
0x02 marker as a 4-byte little-endian signed integer, which is negative
exactly when the top bit of the fourth byte is set; the physical-constraints
decoder instead applies the unsigned little-endian conversion, so its result
is never negative. -/
theorem c7_int32_decoding :
    (∀ buf i n klen, i + 2 < n → buf[i]? = some klen → sentinelByte klen = false →
      0 < klen → klen ≤ 96 → buf[i + 1 + klen]? = some 2 →
      i + 1 + klen + 5 ≤ buf.length →
      tokNext buf i n = .tok (pySlice buf (i + 1) klen) .i32
        (.int (toSigned32 (leNat (pySlice buf (i + 1 + klen + 1) 4)))) (i + 1 + klen + 5)) ∧
    (∀ b0 b1 b2 b3 : Nat, b0 < 256 → b1 < 256 → b2 < 256 → b3 < 256 →
      (toSigned32 (leNat [b0, b1, b2, b3]) < 0 ↔ 128 ≤ b3)) ∧
    (∀ jsb loc, jsb[find_indicator jsb loc]? = some 2 →
      find_indicator jsb loc + 5 ≤ jsb.length →
      grab jsb loc = .val ((leNat (pySlice jsb (find_indicator jsb loc + 1) 4) : Nat) : Int)) ∧
    (∀ jsb loc v, grab jsb loc = .val v → 0 ≤ v) := by
  refine ⟨?_, ?_, ?_, ?_⟩
  · intro buf i n klen h hm hs h0 h96 hv hlen
    rw [tokNext_unfold buf i n h, hm]
    simp only [hs, Bool.false_eq_true, if_false]
    simp only [if_pos (And.intro h0 h96)]
    unfold readVal
    rw [hv]
    simp only [if_pos rfl]
    unfold unpackI32
    have hle : i + 1 + klen + 1 + 4 ≤ buf.length := by omega
    simp [hle]
  · intro b0 b1 b2 b3 h0 h1 h2 h3
    simp only [leNat, toSigned32]
    split_ifs with hlt <;> omega
  · intro jsb loc hind hlen
    simp only [grab]
    rw [hind]
    simp only [int_size, if_pos rfl]
    have hblob : (pySlice jsb (find_indicator jsb loc + 1) 4).length = 4 := by
      simp only [pySlice, List.length_take, List.length_drop]
      omega
    simp [hblob]
  · intro jsb loc v hval
    simp only [grab] at hval
    repeat' split at hval
    all_goals cases hval
    exact Int.natCast_nonneg _

/-! ## Claim C2: resynchronisation trim -/

/-- Witness for the amended claim C7: a token with key ABC and value bytes
1, 0, 0, 128 decodes through the reader as a negative int32, while the
physical-constraints decoder on an equally marked value stays
non-negative. -/
theorem c7_int32_decoding_witness :
    (([3, 65, 66, 67, 2, 1, 0, 0, 128, 0] : List Nat)[0]? = some 3 ∧
      tokNext [3, 65, 66, 67, 2, 1, 0, 0, 128, 0] 0 10 =
        .tok (pySlice [3, 65, 66, 67, 2, 1, 0, 0, 128, 0] 1 3) .i32
          (.int (toSigned32 (leNat (pySlice [3, 65, 66, 67, 2, 1, 0, 0, 128, 0] 5 4)))) 9) ∧
    (toSigned32 (leNat [1, 0, 0, 128]) < 0 ↔ 128 ≤ 128) ∧
    (grab [2, 9, 9, 9, 9] 0 =
      .val ((leNat (pySlice [2, 9, 9, 9, 9] 1 4) : Nat) : Int)) ∧
    (0 : Int) ≤ 151587081 :=
  ⟨⟨by decide,
    c7_int32_decoding.1 [3, 65, 66, 67, 2, 1, 0, 0, 128, 0] 0 10 3 (by decide) (by decide)
      (by decide) (by decide) (by decide) (by decide) (by decide)⟩,
   c7_int32_decoding.2.1 1 0 0 128 (by decide) (by decide) (by decide) (by decide),
   c7_int32_decoding.2.2.1 [2, 9, 9, 9, 9] 0 (by decide) (by decide),
   c7_int32_decoding.2.2.2 [2, 9, 9, 9, 9] 0 151587081 (by decide)⟩

/-- Claim C2 evaluated at the failing input (code bug demonstration): on a
buffer whose first triplet name token carries a spurious trailing control
byte 0x13, the non-verbose run stores the name with the control byte still
attached while the verbose run of the very same input stores it trimmed; the
one-byte-earlier stream restart happens in both runs, as the ten successful
subsequent rows show.  The trim that the spec describes is executed only
under the verbose flag because the source indents it into the verbose-print
block. -/
theorem c2_trim_gated_by_verbose :
    parse_expected_score esBufC2 0 esBufC2.length false =
      .ok (⟨[65, 66, 19], 10, 20⟩ :: List.replicate 10 ⟨[65, 66], 10, 20⟩) ∧
    parse_expected_score esBufC2 0 esBufC2.length true =
      .ok (List.replicate 11 ⟨[65, 66], 10, 20⟩) ∧
    (19 : Nat) < 32 :=
  ⟨by decide, by decide, by decide⟩

/-! ## Claim C4: declared array counts -/

theorem rlScanAll_shift (d : List Nat) (fuel : Nat) :
    ∀ cur rows, rlScanAll d fuel cur rows =
      (rlScanAll d fuel cur []).map (fun r => rows ++ r) := by
  induction fuel with
  | zero => intro cur rows; simp [rlScanAll, Except.map]
  | succ fuel ih =>
    intro cur rows
    simp only [rlScanAll]
    cases hfind : findSub d indexSent cur with
    | none => simp [Except.map]
    | some idxOff =>
      cases hidx : rlReadInt d (idxOff + 6) with
      | error e => simp [hidx, Except.map]
      | ok iv =>
        obtain ⟨iv1, iv2⟩ := iv
        simp only [hidx]
        cases hrole : findSub d roleSent iv2 with
        | none => simp [hrole, Except.map]
        | some roleOff =>
          simp only [hrole]
          cases hrv : rlReadInt d (roleOff + 5) with
          | error e => simp [hrv, Except.map]
          | ok rv =>
            obtain ⟨rv1, rv2⟩ := rv
            simp only [hrv, List.nil_append]
            rw [ih rv2 (rows ++ [RlRow.mk iv1 rv1]), ih rv2 [RlRow.mk iv1 rv1]]
            cases rlScanAll d fuel rv2 [] with
            | error e => simp [Except.map]
            | ok rest => simp [Except.map]

theorem rlLoop_vs_scan (d : List Nat) (dcl : Nat) :
    ∀ fuel cur rows rest, rows.length < dcl →
    rlScanAll d fuel cur [] = .ok rest →
    (dcl ≤ rows.length + rest.length →
      rlLoop d (some dcl) fuel cur rows = .ok (rows ++ rest.take (dcl - rows.length))) ∧
    (rows.length + rest.length < dcl →
      rlLoop d (some dcl) fuel cur rows = .error .truncated) := by
  intro fuel
  induction fuel with
  | zero =>
    intro cur rows rest hlt hscan
    simp only [rlScanAll] at hscan
    cases hscan
    constructor
    · intro hle; simp at hle; omega
    · intro _
      simp only [rlLoop, rlFinish]
      rw [if_pos (by omega)]
  | succ fuel ih =>
    intro cur rows rest hlt hscan
    simp only [rlScanAll] at hscan
    simp only [rlLoop]
    cases hfind : findSub d indexSent cur with
    | none =>
      simp only [hfind] at hscan
      simp only [hfind]
      cases hscan
      constructor
      · intro hle; simp at hle; omega
      · intro _
        simp only [rlFinish]
        rw [if_pos (by omega)]
    | some idxOff =>
      simp only [hfind] at hscan
      simp only [hfind]
      cases hidx : rlReadInt d (idxOff + 6) with
      | error e => simp only [hidx] at hscan; cases hscan
      | ok iv =>
        obtain ⟨iv1, iv2⟩ := iv
        simp only [hidx] at hscan
        simp only [hidx]
        cases hrole : findSub d roleSent iv2 with
        | none => simp only [hrole] at hscan; cases hscan
        | some roleOff =>
          simp only [hrole] at hscan
          simp only [hrole]
          cases hrv : rlReadInt d (roleOff + 5) with
          | error e => simp only [hrv] at hscan; cases hscan
          | ok rv =>
            obtain ⟨rv1, rv2⟩ := rv
            simp only [hrv] at hscan
            simp only [hrv]
            rw [rlScanAll_shift] at hscan
            cases hrest : rlScanAll d fuel rv2 [] with
            | error e => simp only [hrest] at hscan; cases hscan
            | ok rest2 =>
              simp only [hrest] at hscan
              simp only [Except.map, List.nil_append] at hscan
              cases hscan
              by_cases hstop : dcl ≤ (rows ++ [RlRow.mk iv1 rv1]).length
              · rw [if_pos hstop]
                simp only [List.length_append, List.length_cons, List.length_nil] at hstop
                have hdcl : dcl = rows.length + 1 := by omega
                constructor
                · intro _
                  simp only [rlFinish]
                  rw [if_neg (by simp; omega)]
                  subst hdcl
                  simp
                · intro hbad
                  simp at hbad
                  omega
              · rw [if_neg hstop]
                simp only [List.length_append, List.length_cons, List.length_nil] at hstop
                have ihx := ih rv2 (rows ++ [RlRow.mk iv1 rv1]) rest2
                  (by simp; omega) hrest
                constructor
                · intro hle
                  rw [ihx.1 (by simp at hle ⊢; omega)]
                  simp only [List.length_append, List.length_cons, List.length_nil]
                  rw [List.append_assoc]
                  congr 1
                  have hsplit : dcl - rows.length = (dcl - (rows.length + 1)) + 1 := by omega
                  rw [hsplit]
                  simp [List.take_succ_cons]
                · intro hbad
                  exact ihx.2 (by simp at hbad ⊢; omega)

/-- Claim C4 counterexample: an array container declaring 0 rows over a range
holding one well-formed row makes the parser raise the truncated error even
though the declared count is satisfiable, instead of stopping after exactly 0
rows. -/
theorem c4_counterexample : ¬ RlClaimC4 := by
  intro h
  have inst := (h rlBufZero 0 34 0 21 [⟨5, 5⟩] (by decide) (by decide)).1 (by decide)
  exact absurd inst (by decide)

/-- Claim C4 as amended: for an array container with declared count at least
1, when the scanned range holds at least that many well-formed rows the
parser returns exactly the first declared-count rows even if more matching
tokens follow, and when it holds fewer the parser raises the
truncated-or-corrupt error rather than returning the partial row list; in
particular every successful parse returns exactly the declared number of
rows. -/
theorem c4_declared_count (buf : List Nat) (start stop dcl body : Nat) (all : List RlRow)
    (hhead : rlHead buf start = .ok (some dcl, body)) (h1 : 1 ≤ dcl)
    (hscan : role_lookup_all buf start stop = .ok all) :
    (dcl ≤ all.length → parse_role_lookup buf start stop = .ok (all.take dcl)) ∧
    (all.length < dcl → parse_role_lookup buf start stop = .error .truncated) ∧
    (∀ rows, parse_role_lookup buf start stop = .ok rows → rows.length = dcl) := by
  unfold parse_role_lookup
  unfold role_lookup_all at hscan
  simp only [hhead] at hscan ⊢
  have base := rlLoop_vs_scan (pySlice buf body (stop - body)) dcl
    ((pySlice buf body (stop - body)).length + 1) 0 [] all (by simpa using h1) hscan
  refine ⟨?_, ?_, ?_⟩
  · intro h
    have := base.1 (by simpa using h)
    simpa using this
  · intro h
    exact base.2 (by simpa using h)
  · intro rows hok
    by_cases hc : dcl ≤ all.length
    · have heq := base.1 (by simpa using hc)
      simp only [List.length_nil, Nat.sub_zero, List.nil_append] at heq
      rw [heq] at hok
      cases hok
      simp [List.length_take]
      omega
    · have heq := base.2 (by simp only [List.length_nil, Nat.zero_add]; omega)
      rw [heq] at hok
      cases hok

/-- Witness for the amended claim C4: declared count 2 over three available
rows parses to exactly the first two. -/
theorem c4_declared_count_witness :
    (rlHead rlBufThree 0 = .ok (some 2, 21) ∧ (1 : Nat) ≤ 2 ∧
      role_lookup_all rlBufThree 0 60 = .ok [⟨5, 21⟩, ⟨6, 22⟩, ⟨7, 23⟩]) ∧
    ((2 : Nat) ≤ 3 ∧
      parse_role_lookup rlBufThree 0 60 = .ok (([⟨5, 21⟩, ⟨6, 22⟩, ⟨7, 23⟩] : List RlRow).take 2)) :=
  ⟨⟨by decide, by decide, by decide⟩,
   ⟨by decide,
    (c4_declared_count rlBufThree 0 60 2 21 [⟨5, 21⟩, ⟨6, 22⟩, ⟨7, 23⟩]
      (by decide) (by decide) (by decide)).1 (by decide)⟩⟩

/-! ## Claim C9: coefficient block sealing -/


theorem chunksOf52K_fuel : ∀ k1 k2 (l : List RoleCoeff), l.length ≤ k1 → l.length ≤ k2 →
    chunksOf52K k1 l = chunksOf52K k2 l := by
  intro k1
  induction k1 with
  | zero =>
    intro k2 l h1 _
    have : l = [] := List.length_eq_zero.mp (by omega)
    subst this
    cases k2 <;> simp [chunksOf52K]
  | succ k1 ih =>
    intro k2 l h1 h2
    cases k2 with
    | zero =>
      have : l = [] := List.length_eq_zero.mp (by omega)
      subst this
      simp [chunksOf52K]
    | succ k2 =>
      simp only [chunksOf52K]
      by_cases h52 : 52 ≤ l.length
      · rw [if_pos h52, if_pos h52]
        rw [ih k2 (l.drop 52) (by simp; omega) (by simp; omega)]
      · rw [if_neg h52, if_neg h52]

theorem chunksOf52_unfold (l : List RoleCoeff) :
    chunksOf52 l = if 52 ≤ l.length then l.take 52 :: chunksOf52 (l.drop 52) else [] := by
  unfold chunksOf52
  by_cases h52 : 52 ≤ l.length
  · rw [if_pos h52]
    obtain ⟨m, hm⟩ : ∃ m, l.length = m + 1 := ⟨l.length - 1, by omega⟩
    rw [hm]
    simp only [chunksOf52K]
    rw [if_pos h52]
    rw [chunksOf52K_fuel m (l.drop 52).length (l.drop 52) (by simp; omega) le_rfl]
  · rw [if_neg h52]
    cases hl : l.length with
    | zero => simp [chunksOf52K]
    | succ m =>
      simp only [chunksOf52K]
      rw [if_neg (by omega)]

theorem chunksOf52_short (l : List RoleCoeff) (h : l.length < 52) : chunksOf52 l = [] := by
  rw [chunksOf52_unfold, if_neg (by omega)]

theorem chunksOf52_build (l rest : List RoleCoeff) (h : l.length = 52) :
    chunksOf52 (l ++ rest) = l :: chunksOf52 rest := by
  rw [chunksOf52_unfold, if_pos (by simp [h])]
  congr 1
  · rw [← h, List.take_left]
  · rw [← h, List.drop_left]

theorem chunksOf52_mem_length : ∀ n (l : List RoleCoeff), l.length ≤ n →
    ∀ b ∈ chunksOf52 l, b.length = 52 := by
  intro n
  induction n with
  | zero =>
    intro l h b hb
    have : l = [] := List.length_eq_zero.mp (by omega)
    subst this
    rw [chunksOf52_unfold] at hb
    simp at hb
  | succ n ih =>
    intro l h b hb
    rw [chunksOf52_unfold] at hb
    by_cases h52 : 52 ≤ l.length
    · rw [if_pos h52] at hb
      rcases List.mem_cons.mp hb with hb1 | hb2
      · subst hb1
        simp
        omega
      · exact ih (l.drop 52) (by simp; omega) b hb2
    · rw [if_neg h52] at hb
      simp at hb

theorem chunksOf52_flatten : ∀ n (l : List RoleCoeff), l.length ≤ n →
    (chunksOf52 l).flatten ++ l.drop (52 * (chunksOf52 l).length) = l := by
  intro n
  induction n with
  | zero =>
    intro l h
    have : l = [] := List.length_eq_zero.mp (by omega)
    subst this
    simp [chunksOf52_unfold]
  | succ n ih =>
    intro l h
    rw [chunksOf52_unfold]
    by_cases h52 : 52 ≤ l.length
    · rw [if_pos h52]
      simp only [List.flatten_cons, List.length_cons]
      have hdrop : 52 * ((chunksOf52 (l.drop 52)).length + 1) =
          52 * (chunksOf52 (l.drop 52)).length + 52 := by ring
      rw [hdrop]
      have hdd : l.drop (52 * (chunksOf52 (l.drop 52)).length + 52) =
          (l.drop 52).drop (52 * (chunksOf52 (l.drop 52)).length) := by
        rw [List.drop_drop]
        congr 1
        omega
      rw [hdd, List.append_assoc]
      rw [ih (l.drop 52) (by simp; omega)]
      exact List.take_append_drop 52 l
    · rw [if_neg h52]
      simp



theorem roleScanFlat_shift (data : List Nat) (body stop : Nat) : ∀ fuel cur acc,
    roleScanFlat data body stop fuel cur acc =
      (roleScanFlat data body stop fuel cur []).map (fun r => acc ++ r) := by
  intro fuel
  induction fuel with
  | zero => intro cur acc; simp [roleScanFlat, Except.map]
  | succ fuel ih =>
    intro cur acc
    simp only [roleScanFlat]
    cases hfind : findSub data nameSent cur with
    | none => simp [hfind, Except.map]
    | some npos =>
      simp only [hfind]
      cases hv : findSub data valueSent (npos + 6) with
      | none => simp [hv, Except.map]
      | some vpos =>
        simp only [hv]
        cases hval : roleValueAt data (vpos + 6) with
        | error e => simp [hval, Except.map]
        | ok vn =>
          obtain ⟨value, nxt⟩ := vn
          simp only [hval]
          by_cases hstop : stop ≤ body + nxt
          · simp [hstop, Except.map]
          · simp only [if_neg hstop, List.nil_append]
            generalize (⟨clean_label (pySlice data (npos + 6) (vpos - (npos + 6))), value⟩ : RoleCoeff) = row
            rw [ih nxt (acc ++ [row]), ih nxt [row]]
            cases roleScanFlat data body stop fuel nxt [] with
            | error e => simp [Except.map]
            | ok rest => simp [Except.map]

theorem rdAssemble_step (blocks : List (List RoleCoeff)) (coeffs : List RoleCoeff)
    (row : RoleCoeff) (rest : List RoleCoeff) :
    rdAssemble blocks coeffs (row :: rest) =
      rdAssemble (if (coeffs ++ [row]).length = 52 then blocks ++ [coeffs ++ [row]] else blocks)
        (if (coeffs ++ [row]).length = 52 then [] else coeffs ++ [row]) rest := by
  have hsplit : coeffs ++ row :: rest = (coeffs ++ [row]) ++ rest := by simp
  by_cases h52 : (coeffs ++ [row]).length = 52
  · simp only [rdAssemble, if_pos h52, hsplit]
    rw [chunksOf52_build (coeffs ++ [row]) rest h52]
    have hb : blocks ++ (coeffs ++ [row]) :: chunksOf52 rest =
        (blocks ++ [coeffs ++ [row]]) ++ chunksOf52 rest := by simp
    have hm : ((coeffs ++ [row]) ++ rest).length % 52 = ([] ++ rest).length % 52 := by
      simp only [List.length_append, List.length_cons, List.length_nil, List.nil_append] at h52 ⊢
      omega
    rw [hb, hm]
    simp
  · simp only [rdAssemble, if_neg h52, hsplit]

theorem roleLoop_vs_flat (data : List Nat) (body stop : Nat) : ∀ fuel cur blocks coeffs,
    coeffs.length < 52 →
    roleLoop data body stop fuel cur blocks coeffs =
      (roleScanFlat data body stop fuel cur []).map (rdAssemble blocks coeffs) := by
  intro fuel
  induction fuel with
  | zero =>
    intro cur blocks coeffs hc
    simp only [roleLoop, roleScanFlat, Except.map, rdAssemble, List.append_nil]
    rw [chunksOf52_short coeffs (by simpa using hc)]
    simp [Nat.mod_eq_of_lt hc]
  | succ fuel ih =>
    intro cur blocks coeffs hc
    simp only [roleLoop, roleScanFlat]
    cases hfind : findSub data nameSent cur with
    | none =>
      simp only [hfind, Except.map, rdAssemble, List.append_nil]
      rw [chunksOf52_short coeffs (by simpa using hc)]
      simp [Nat.mod_eq_of_lt hc]
    | some npos =>
      simp only [hfind]
      cases hv : findSub data valueSent (npos + 6) with
      | none =>
        simp only [hv, Except.map, rdAssemble, List.append_nil]
        rw [chunksOf52_short coeffs (by simpa using hc)]
        simp [Nat.mod_eq_of_lt hc]
      | some vpos =>
        simp only [hv]
        cases hval : roleValueAt data (vpos + 6) with
        | error e => simp [hval, Except.map]
        | ok vn =>
          obtain ⟨value, nxt⟩ := vn
          simp only [hval]
          generalize (⟨clean_label (pySlice data (npos + 6) (vpos - (npos + 6))), value⟩ : RoleCoeff) = row
          by_cases hstop : stop ≤ body + nxt
          · simp only [if_pos hstop, Except.map, List.nil_append]
            have hstep := rdAssemble_step blocks coeffs row []
            rw [show (row :: []) = [row] from rfl] at hstep
            rw [hstep]
            simp only [rdAssemble, List.append_nil]
            rw [chunksOf52_short _ (by
              by_cases h52 : (coeffs ++ [row]).length = 52
              · simp [h52]
              · simp only [if_neg h52]
                simp only [List.length_append, List.length_cons, List.length_nil] at h52 ⊢
                omega)]
            simp only [List.append_nil, RdOut.mk.injEq, Except.ok.injEq, true_and]
            by_cases h52 : (coeffs ++ [row]).length = 52
            · rw [if_pos h52]
              simp only [List.length_append, List.length_cons, List.length_nil] at h52
              simp only [List.length_nil]
              try omega
            · rw [if_neg h52]
              simp only [List.length_append, List.length_cons, List.length_nil] at h52 ⊢
              omega
          · simp only [if_neg hstop, List.nil_append]
            rw [roleScanFlat_shift data body stop fuel nxt]
            rw [ih nxt _ _ (by
              by_cases h52 : (coeffs ++ [row]).length = 52
              · simp [h52]
              · simp only [if_neg h52]
                simp only [List.length_append, List.length_cons, List.length_nil] at h52 ⊢
                omega)]
            cases roleScanFlat data body stop fuel nxt [] with
            | error e => simp [Except.map]
            | ok rest =>
              simp only [Except.map, List.nil_append]
              congr 1
              exact (rdAssemble_step blocks coeffs _ rest).symm

/-- Claim C9: a successful parse_role_data run seals a block exactly at every
52 collected coefficients: its blocks are precisely the full 52-chunks of the
flat coefficient stream the scan visits, every returned block has length 52,
the trailing fragment is dropped (never padded) and its size is reported. -/
theorem c9_role_blocks (buf : List Nat) (start stop : Nat) (out : RdOut)
    (hp : parse_role_data buf start stop = .ok out) :
    ∃ flat, role_data_flat buf start stop = .ok flat ∧
      out.blocks = chunksOf52 flat ∧ out.dropped = flat.length % 52 ∧
      out.blocks.flatten ++ flat.drop (52 * out.blocks.length) = flat ∧
      (∀ b ∈ out.blocks, b.length = 52) ∧ out.dropped < 52 := by
  unfold parse_role_data at hp
  unfold role_data_flat
  cases hb : roleBody buf start with
  | error e => rw [hb] at hp; cases hp
  | ok body =>
    rw [hb] at hp
    simp only at hp ⊢
    rw [roleLoop_vs_flat _ body stop _ 0 [] [] (by simp)] at hp
    cases hs : roleScanFlat (pySlice buf body (stop - body)) body stop
        ((pySlice buf body (stop - body)).length + 1) 0 [] with
    | error e => rw [hs] at hp; cases hp
    | ok flat =>
      rw [hs] at hp
      simp only [Except.map] at hp
      cases hp
      refine ⟨flat, rfl, ?_, ?_, ?_, ?_, ?_⟩
      · simp [rdAssemble]
      · simp [rdAssemble]
      · simp only [rdAssemble, List.nil_append]
        exact chunksOf52_flatten flat.length flat le_rfl
      · simp only [rdAssemble, List.nil_append]
        exact chunksOf52_mem_length flat.length flat le_rfl
      · simp only [rdAssemble]
        exact Nat.mod_lt _ (by omega)

/-- Witness for claim C9: a section of 53 coefficients parses to one sealed
52-block with a dropped fragment of one, matching the chunk view of the
53-entry flat scan. -/
theorem c9_role_blocks_witness :
    (parse_role_data rdBufC9 0 699 = .ok ⟨[List.replicate 52 ⟨[], 5⟩], 1⟩) ∧
    (∃ flat, role_data_flat rdBufC9 0 699 = .ok flat ∧
      [List.replicate 52 (⟨[], 5⟩ : RoleCoeff)] = chunksOf52 flat ∧
      (1 : Nat) = flat.length % 52 ∧
      ([List.replicate 52 (⟨[], 5⟩ : RoleCoeff)] : List (List RoleCoeff)).flatten ++
        flat.drop (52 * ([List.replicate 52 (⟨[], 5⟩ : RoleCoeff)] : List (List RoleCoeff)).length) = flat ∧
      (∀ b ∈ ([List.replicate 52 (⟨[], 5⟩ : RoleCoeff)] : List (List RoleCoeff)), b.length = 52) ∧
      (1 : Nat) < 52) :=
  ⟨by decide, c9_role_blocks rdBufC9 0 699 ⟨[List.replicate 52 ⟨[], 5⟩], 1⟩ (by decide)⟩


theorem encodeLE4_length (v : Int) (vb : List Nat) (h : encodeLE4 v = some vb) :
    vb.length = 4 := by
  unfold encodeLE4 at h
  split_ifs at h with h1
  · rw [← Option.some.inj h]
    simp

theorem wb_length (b : List Nat) (s : Nat) (v : List Nat) (hs : s ≤ b.length) :
    (writeBytes b s v).length = max b.length (s + v.length) := by
  simp [writeBytes, List.length_take, List.length_drop]
  omega

theorem wb_get_lt (b : List Nat) (s : Nat) (v : List Nat) (q : Nat)
    (hq : q < s) (hs : s ≤ b.length) : (writeBytes b s v)[q]? = b[q]? := by
  unfold writeBytes
  have hmin : min s b.length = s := Nat.min_eq_left hs
  have hlen1 : (List.take s b ++ v).length = s + v.length := by
    simp [List.length_take, hmin]
  rw [List.getElem?_append, hlen1, if_pos (by omega)]
  rw [List.getElem?_append, List.length_take, hmin, if_pos hq]
  rw [List.getElem?_take, if_pos hq]

theorem wb_get_in (b : List Nat) (s : Nat) (v : List Nat) (q : Nat)
    (hs : s ≤ b.length) (h1 : s ≤ q) (h2 : q < s + v.length) :
    (writeBytes b s v)[q]? = v[q - s]? := by
  unfold writeBytes
  have hmin : min s b.length = s := Nat.min_eq_left hs
  have hlen1 : (List.take s b ++ v).length = s + v.length := by
    simp [List.length_take, hmin]
  rw [List.getElem?_append, hlen1, if_pos (by omega)]
  rw [List.getElem?_append, List.length_take, hmin, if_neg (by omega)]

theorem wb_get_ge (b : List Nat) (s : Nat) (v : List Nat) (q : Nat)
    (hs : s ≤ b.length) (h1 : s + v.length ≤ q) :
    (writeBytes b s v)[q]? = b[q]? := by
  unfold writeBytes
  have hmin : min s b.length = s := Nat.min_eq_left hs
  have hlen1 : (List.take s b ++ v).length = s + v.length := by
    simp [List.length_take, hmin]
  rw [List.getElem?_append, hlen1, if_neg (by omega)]
  rw [List.getElem?_drop]
  congr 1
  omega

theorem wb_get_out (b : List Nat) (s : Nat) (v : List Nat) (q : Nat)
    (hs : s ≤ b.length) (h : q < s ∨ s + v.length ≤ q) :
    (writeBytes b s v)[q]? = b[q]? := by
  rcases h with h | h
  · exact wb_get_lt b s v q h hs
  · exact wb_get_ge b s v q hs h

theorem wb_self (b : List Nat) (s : Nat) (v : List Nat)
    (hlen : s + v.length ≤ b.length)
    (hcontent : ∀ j, j < v.length → b[s + j]? = v[j]?) :
    writeBytes b s v = b := by
  apply List.ext_getElem?
  intro q
  by_cases h1 : q < s
  · exact wb_get_lt b s v q h1 (by omega)
  · by_cases h2 : q < s + v.length
    · rw [wb_get_in b s v q (by omega) (by omega) h2]
      rw [← hcontent (q - s) (by omega)]
      congr 1
      omega
    · exact wb_get_ge b s v q (by omega) (by omega)

theorem physical_table_ok : TableOK physical_constraints_offsets := by decide

theorem physical_table_version_safe : VersionSafe physical_constraints_offsets := by decide

theorem tiny_table_ok : TableOK tinyTable := by decide

theorem lookup_mem {α : Type} (k : String) (table : List (String × α)) (v : α)
    (h : table.lookup k = some v) : (k, v) ∈ table := by
  induction table with
  | nil => cases h
  | cons e tl ih =>
    obtain ⟨a, b⟩ := e
    by_cases hbe : k = a
    · subst hbe
      simp only [List.lookup, beq_self_eq_true] at h
      cases h
      exact List.mem_cons_self _ _
    · have hfalse : (k == a) = false := beq_eq_false_iff_ne.mpr hbe
      simp only [List.lookup, hfalse] at h
      exact List.mem_cons_of_mem _ (ih h)

theorem mem_occPairs (table : List (String × List Nat)) (k : String) (offs : List Nat)
    (l : Nat) (hlk : table.lookup k = some offs)
    (hkn : ignored_keys.contains k = false) (hl : l ∈ offs) :
    (k, l) ∈ occPairs table := by
  unfold occPairs
  rw [List.mem_flatMap]
  refine ⟨(k, offs), ?_, ?_⟩
  · rw [List.mem_filter]
    refine ⟨lookup_mem k table offs hlk, ?_⟩
    simp only [hkn, Bool.not_false]
  · rw [List.mem_map]
    exact ⟨l, hl, rfl⟩

theorem occOK_symm :
    Symmetric (fun (a b : String × Nat) => occOK (a.1.length, a.2) (b.1.length, b.2)) := by
  intro a b h
  unfold occOK at h ⊢
  omega

theorem table_occOK (table : List (String × List Nat)) (ht : TableOK table)
    (k1 k2 : String) (l1 l2 : Nat)
    (h1 : (k1, l1) ∈ occPairs table) (h2 : (k2, l2) ∈ occPairs table)
    (hne : ¬ (k1 = k2 ∧ l1 = l2)) :
    occOK (k1.length, l1) (k2.length, l2) := by
  have hne2 : ((k1, l1) : String × Nat) ≠ (k2, l2) := by
    intro h
    cases h
    exact hne ⟨rfl, rfl⟩
  exact List.Pairwise.forall occOK_symm ht h1 h2 hne2


theorem occOK_frame (n1 l1 n2 l2 q : Nat) (h : occOK (n1, l1) (n2, l2))
    (h1 : l1 + n1 ≤ q) (h2 : q < l1 + n1 + 5) :
    ¬ (l2 + n2 + 1 ≤ q ∧ q < l2 + n2 + 5) := by
  simp only [occOK] at h
  omega

theorem patchOccs_frame (k : String) (v : Int) (offs : List Nat) (q : Nat)
    (hq : ∀ l ∈ offs, ¬ (l + k.length + 1 ≤ q ∧ q < l + k.length + 5)) :
    ∀ (b : List Nat) (w : List Warn) (out : List Nat × List Warn),
      patchOccs k v offs (b, w) = some out → out.1[q]? = b[q]? := by
  induction offs with
  | nil =>
    intro b w out h
    simp only [patchOccs] at h
    cases h
    rfl
  | cons l rest ih =>
    intro b w out h
    simp only [patchOccs] at h
    cases hind : b[l + k.length]? with
    | none => rw [hind] at h; cases h
    | some ind =>
      simp only [hind] at h
      split_ifs at h with hi2
      · exact ih (fun l2 hl2 => hq l2 (List.mem_cons_of_mem _ hl2)) _ _ _ h
      ·         cases henc : encodeLE4 v with
        | none => rw [henc] at h; cases h
        | some vb =>
          simp only [henc] at h
          have hrec := ih (fun l2 hl2 => hq l2 (List.mem_cons_of_mem _ hl2)) _ _ _ h
          rw [hrec]
          have hvb := encodeLE4_length v vb henc
          have hp : l + k.length < b.length := by
            have := List.getElem?_eq_some_iff.mp hind
            exact this.1
          have hql := hq l (List.mem_cons_self _ _)
          apply wb_get_out
          · omega
          · rw [hvb]
            omega

theorem patchStep_frame (table : List (String × List Nat)) (e : String × Int) (q : Nat)
    (hq : ignored_keys.contains e.1 = false →
      ∀ offs, table.lookup e.1 = some offs →
        ∀ l ∈ offs, ¬ (l + e.1.length + 1 ≤ q ∧ q < l + e.1.length + 5)) :
    ∀ (b : List Nat) (w : List Warn) (out : List Nat × List Warn),
      patchStep table (b, w) e = some out → out.1[q]? = b[q]? := by
  intro b w out h
  simp only [patchStep] at h
  by_cases hig : ignored_keys.contains e.1
  · rw [if_pos hig] at h
    cases h
    rfl
  · rw [if_neg hig] at h
    cases hlk : table.lookup e.1 with
    | none =>
      rw [hlk] at h
      cases h
      rfl
    | some offs =>
      rw [hlk] at h
      exact patchOccs_frame e.1 e.2 offs q
        (hq (by simpa using hig) offs hlk) b w out h

theorem patchGo_frame (table : List (String × List Nat)) (q : Nat) :
    ∀ (edits : List (String × Int)),
      (∀ e ∈ edits, ignored_keys.contains e.1 = false →
        ∀ offs, table.lookup e.1 = some offs →
          ∀ l ∈ offs, ¬ (l + e.1.length + 1 ≤ q ∧ q < l + e.1.length + 5)) →
      ∀ (b : List Nat) (w : List Warn) (out : List Nat × List Warn),
        patchGo table edits (b, w) = some out → out.1[q]? = b[q]? := by
  intro edits
  induction edits with
  | nil =>
    intro _ b w out h
    simp only [patchGo] at h
    cases h
    rfl
  | cons e rest ih =>
    intro hq b w out h
    simp only [patchGo] at h
    cases hstep : patchStep table (b, w) e with
    | none => rw [hstep] at h; cases h
    | some st2 =>
      rw [hstep] at h
      obtain ⟨b2, w2⟩ := st2
      have h1 := patchStep_frame table e q (hq e (List.mem_cons_self _ _)) b w (b2, w2) hstep
      have h2 := ih (fun e2 he2 => hq e2 (List.mem_cons_of_mem _ he2)) b2 w2 out h
      rw [h2]
      exact h1

theorem patchOccs_warn_mono (k : String) (v : Int) :
    ∀ (offs : List Nat) (b : List Nat) (w : List Warn) (out : List Nat × List Warn),
      patchOccs k v offs (b, w) = some out → ∀ x ∈ w, x ∈ out.2 := by
  intro offs
  induction offs with
  | nil =>
    intro b w out h x hx
    simp only [patchOccs] at h
    cases h
    exact hx
  | cons l rest ih =>
    intro b w out h x hx
    simp only [patchOccs] at h
    cases hind : b[l + k.length]? with
    | none => rw [hind] at h; cases h
    | some ind =>
      simp only [hind] at h
      split_ifs at h with hi2
      · exact ih _ _ _ h x (List.mem_append_left _ hx)
      · cases henc : encodeLE4 v with
        | none => rw [henc] at h; cases h
        | some vb =>
          simp only [henc] at h
          exact ih _ _ _ h x hx

theorem patchStep_warn_mono (table : List (String × List Nat)) (e : String × Int)
    (b : List Nat) (w : List Warn) (out : List Nat × List Warn)
    (h : patchStep table (b, w) e = some out) : ∀ x ∈ w, x ∈ out.2 := by
  intro x hx
  simp only [patchStep] at h
  split_ifs at h with hig
  · cases h; exact hx
  · cases hlk : table.lookup e.1 with
    | none =>
      rw [hlk] at h
      cases h
      exact List.mem_append_left _ hx
    | some offs =>
      rw [hlk] at h
      exact patchOccs_warn_mono e.1 e.2 offs b w out h x hx

theorem patchGo_warn_mono (table : List (String × List Nat)) :
    ∀ (edits : List (String × Int)) (b : List Nat) (w : List Warn)
      (out : List Nat × List Warn),
      patchGo table edits (b, w) = some out → ∀ x ∈ w, x ∈ out.2 := by
  intro edits
  induction edits with
  | nil =>
    intro b w out h x hx
    simp only [patchGo] at h
    cases h
    exact hx
  | cons e rest ih =>
    intro b w out h x hx
    simp only [patchGo] at h
    cases hstep : patchStep table (b, w) e with
    | none => rw [hstep] at h; cases h
    | some st2 =>
      rw [hstep] at h
      obtain ⟨b2, w2⟩ := st2
      exact ih b2 w2 out h x (patchStep_warn_mono table e b w (b2, w2) hstep x hx)

theorem patchOccs_warn_keys (k : String) (v : Int) :
    ∀ (offs : List Nat) (b : List Nat) (w : List Warn) (out : List Nat × List Warn),
      patchOccs k v offs (b, w) = some out →
      ∀ x ∈ out.2, x ∈ w ∨ x.key = k := by
  intro offs
  induction offs with
  | nil =>
    intro b w out h x hx
    simp only [patchOccs] at h
    cases h
    exact Or.inl hx
  | cons l rest ih =>
    intro b w out h x hx
    simp only [patchOccs] at h
    cases hind : b[l + k.length]? with
    | none => rw [hind] at h; cases h
    | some ind =>
      simp only [hind] at h
      split_ifs at h with hi2
      · rcases ih _ _ _ h x hx with hw | hk
        · rcases List.mem_append.mp hw with hw' | hw'
          · exact Or.inl hw'
          · right
            rw [List.mem_singleton.mp hw']
            rfl
        · exact Or.inr hk
      · cases henc : encodeLE4 v with
        | none => rw [henc] at h; cases h
        | some vb =>
          simp only [henc] at h
          exact ih _ _ _ h x hx

theorem patchStep_warn_keys (table : List (String × List Nat)) (e : String × Int)
    (b : List Nat) (w : List Warn) (out : List Nat × List Warn)
    (h : patchStep table (b, w) e = some out) :
    ∀ x ∈ out.2, x ∈ w ∨ (x.key = e.1 ∧ ignored_keys.contains e.1 = false) := by
  intro x hx
  simp only [patchStep] at h
  split_ifs at h with hig
  · cases h; exact Or.inl hx
  · cases hlk : table.lookup e.1 with
    | none =>
      rw [hlk] at h
      cases h
      rcases List.mem_append.mp hx with hw | hw
      · exact Or.inl hw
      · right
        rw [List.mem_singleton.mp hw]
        exact ⟨rfl, by simpa using hig⟩
    | some offs =>
      rw [hlk] at h
      rcases patchOccs_warn_keys e.1 e.2 offs b w out h x hx with hw | hk
      · exact Or.inl hw
      · exact Or.inr ⟨hk, by simpa using hig⟩

theorem patchGo_warn_keys (table : List (String × List Nat)) :
    ∀ (edits : List (String × Int)) (b : List Nat) (w : List Warn)
      (out : List Nat × List Warn),
      patchGo table edits (b, w) = some out →
      ∀ x ∈ out.2, x ∈ w ∨
        ∃ e ∈ edits, x.key = e.1 ∧ ignored_keys.contains e.1 = false := by
  intro edits
  induction edits with
  | nil =>
    intro b w out h x hx
    simp only [patchGo] at h
    cases h
    exact Or.inl hx
  | cons e rest ih =>
    intro b w out h x hx
    simp only [patchGo] at h
    cases hstep : patchStep table (b, w) e with
    | none => rw [hstep] at h; cases h
    | some st2 =>
      rw [hstep] at h
      obtain ⟨b2, w2⟩ := st2
      rcases ih b2 w2 out h x hx with hw | ⟨e2, he2, hk⟩
      · rcases patchStep_warn_keys table e b w (b2, w2) hstep x hw with hw' | hk
        · exact Or.inl hw'
        · exact Or.inr ⟨e, List.mem_cons_self _ _, hk⟩
      · exact Or.inr ⟨e2, List.mem_cons_of_mem _ he2, hk⟩

theorem patchOccs_length_le (k : String) (v : Int) :
    ∀ (offs : List Nat) (b : List Nat) (w : List Warn) (out : List Nat × List Warn),
      patchOccs k v offs (b, w) = some out → b.length ≤ out.1.length := by
  intro offs
  induction offs with
  | nil =>
    intro b w out h
    simp only [patchOccs] at h
    cases h
    exact Nat.le_refl _
  | cons l rest ih =>
    intro b w out h
    simp only [patchOccs] at h
    cases hind : b[l + k.length]? with
    | none => rw [hind] at h; cases h
    | some ind =>
      simp only [hind] at h
      split_ifs at h with hi2
      · exact ih _ _ _ h
      · cases henc : encodeLE4 v with
        | none => rw [henc] at h; cases h
        | some vb =>
          simp only [henc] at h
          have hrec := ih _ _ _ h
          have hp : l + k.length < b.length := (List.getElem?_eq_some_iff.mp hind).1
          have hw := wb_length b (l + k.length + 1) vb (by omega)
          omega

theorem patchOccs_length_eq (k : String) (v : Int) :
    ∀ (offs : List Nat) (b : List Nat) (w : List Warn) (out : List Nat × List Warn),
      (∀ l ∈ offs, l + k.length + 5 ≤ b.length) →
      patchOccs k v offs (b, w) = some out → out.1.length = b.length := by
  intro offs
  induction offs with
  | nil =>
    intro b w out _ h
    simp only [patchOccs] at h
    cases h
    rfl
  | cons l rest ih =>
    intro b w out hfit h
    simp only [patchOccs] at h
    cases hind : b[l + k.length]? with
    | none => rw [hind] at h; cases h
    | some ind =>
      simp only [hind] at h
      split_ifs at h with hi2
      · exact ih _ _ _ (fun l2 hl2 => hfit l2 (List.mem_cons_of_mem _ hl2)) h
      · cases henc : encodeLE4 v with
        | none => rw [henc] at h; cases h
        | some vb =>
          simp only [henc] at h
          have hfl := hfit l (List.mem_cons_self _ _)
          have hvb := encodeLE4_length v vb henc
          have hw := wb_length b (l + k.length + 1) vb (by omega)
          have hlen2 : (writeBytes b (l + k.length + 1) vb).length = b.length := by
            rw [hw, hvb]
            omega
          have hrec := ih (writeBytes b (l + k.length + 1) vb) w out
            (fun l2 hl2 => by rw [hlen2]; exact hfit l2 (List.mem_cons_of_mem _ hl2)) h
          rw [hrec, hlen2]

theorem patchStep_length_le (table : List (String × List Nat)) (e : String × Int)
    (b : List Nat) (w : List Warn) (out : List Nat × List Warn)
    (h : patchStep table (b, w) e = some out) : b.length ≤ out.1.length := by
  simp only [patchStep] at h
  split_ifs at h with hig
  · cases h; exact Nat.le_refl _
  · cases hlk : table.lookup e.1 with
    | none => rw [hlk] at h; cases h; exact Nat.le_refl _
    | some offs =>
      rw [hlk] at h
      exact patchOccs_length_le e.1 e.2 offs b w out h

theorem patchStep_length_eq (table : List (String × List Nat)) (e : String × Int)
    (b : List Nat) (w : List Warn) (out : List Nat × List Warn)
    (hfit : ignored_keys.contains e.1 = false →
      ∀ offs, table.lookup e.1 = some offs → ∀ l ∈ offs, l + e.1.length + 5 ≤ b.length)
    (h : patchStep table (b, w) e = some out) : out.1.length = b.length := by
  simp only [patchStep] at h
  split_ifs at h with hig
  · cases h; rfl
  · cases hlk : table.lookup e.1 with
    | none => rw [hlk] at h; cases h; rfl
    | some offs =>
      rw [hlk] at h
      exact patchOccs_length_eq e.1 e.2 offs b w out
        (hfit (by simpa using hig) offs hlk) h

theorem patchGo_length_le (table : List (String × List Nat)) :
    ∀ (edits : List (String × Int)) (b : List Nat) (w : List Warn)
      (out : List Nat × List Warn),
      patchGo table edits (b, w) = some out → b.length ≤ out.1.length := by
  intro edits
  induction edits with
  | nil =>
    intro b w out h
    simp only [patchGo] at h
    cases h
    exact Nat.le_refl _
  | cons e rest ih =>
    intro b w out h
    simp only [patchGo] at h
    cases hstep : patchStep table (b, w) e with
    | none => rw [hstep] at h; cases h
    | some st2 =>
      rw [hstep] at h
      obtain ⟨b2, w2⟩ := st2
      exact Nat.le_trans (patchStep_length_le table e b w (b2, w2) hstep) (ih b2 w2 out h)

theorem patchGo_length_eq (table : List (String × List Nat)) :
    ∀ (edits : List (String × Int)) (b : List Nat) (w : List Warn)
      (out : List Nat × List Warn),
      (∀ e ∈ edits, ignored_keys.contains e.1 = false →
        ∀ offs, table.lookup e.1 = some offs → ∀ l ∈ offs, l + e.1.length + 5 ≤ b.length) →
      patchGo table edits (b, w) = some out → out.1.length = b.length := by
  intro edits
  induction edits with
  | nil =>
    intro b w out _ h
    simp only [patchGo] at h
    cases h
    rfl
  | cons e rest ih =>
    intro b w out hfit h
    simp only [patchGo] at h
    cases hstep : patchStep table (b, w) e with
    | none => rw [hstep] at h; cases h
    | some st2 =>
      rw [hstep] at h
      obtain ⟨b2, w2⟩ := st2
      have h1 := patchStep_length_eq table e b w (b2, w2)
        (fun hig offs hlk => hfit e (List.mem_cons_self _ _) hig offs hlk) hstep
      have h2 := ih b2 w2 out
        (fun e2 he2 hig offs hlk l hl => by
          rw [h1]
          exact hfit e2 (List.mem_cons_of_mem _ he2) hig offs hlk l hl) h
      rw [h2, h1]


theorem pairwise_offs_of_TableOK (table : List (String × List Nat)) (ht : TableOK table)
    (k : String) (offs : List Nat) (hlk : table.lookup k = some offs)
    (hig : ignored_keys.contains k = false) :
    offs.Pairwise (fun l1 l2 => occOK (k.length, l1) (k.length, l2)) := by
  have hmem : (k, offs) ∈ table.filter (fun e => !ignored_keys.contains e.1) := by
    rw [List.mem_filter]
    refine ⟨lookup_mem k table offs hlk, ?_⟩
    simp only [hig, Bool.not_false]
  have hsub : List.Sublist (offs.map (fun l => (k, l))) (occPairs table) := by
    have hmm := List.mem_map_of_mem (fun e : String × List Nat => e.2.map (fun l => (e.1, l))) hmem
    have hfl := List.sublist_flatten_of_mem hmm
    simpa [occPairs, List.flatMap_def] using hfl
  have hpw : (offs.map (fun l => (k, l))).Pairwise
      (fun a b => occOK (a.1.length, a.2) (b.1.length, b.2)) :=
    List.Pairwise.sublist hsub ht
  rw [List.pairwise_map] at hpw
  exact hpw

theorem occOK_swap (n1 l1 n2 l2 : Nat) (h : occOK (n1, l1) (n2, l2)) :
    occOK (n2, l2) (n1, l1) := by
  simp only [occOK] at h ⊢
  omega

theorem patchOccs_effect (k : String) (v : Int) :
    ∀ (offs : List Nat),
      offs.Pairwise (fun l1 l2 => occOK (k.length, l1) (k.length, l2)) →
      ∀ (b : List Nat) (w : List Warn) (out : List Nat × List Warn),
        patchOccs k v offs (b, w) = some out →
        ∀ l ∈ offs,
          (∃ ind, b[l + k.length]? = some ind) ∧
          (∀ ind, b[l + k.length]? = some ind → ind ≠ 2 →
            Warn.badIndicator k ind ∈ out.2 ∧
            ∀ q, l + k.length ≤ q → q < l + k.length + 5 → out.1[q]? = b[q]?) ∧
          (b[l + k.length]? = some 2 →
            ∃ vb, encodeLE4 v = some vb ∧ out.1[l + k.length]? = some 2 ∧
              ∀ q, l + k.length + 1 ≤ q → q < l + k.length + 5 →
                out.1[q]? = vb[q - (l + k.length + 1)]?) := by
  intro offs
  induction offs with
  | nil =>
    intro _ b w out _ l hl
    cases hl
  | cons l0 rest ih =>
    intro hpw b w out h l hl
    rw [List.pairwise_cons] at hpw
    obtain ⟨hOK0, hpwrest⟩ := hpw
    simp only [patchOccs] at h
    cases hind0 : b[l0 + k.length]? with
    | none => rw [hind0] at h; cases h
    | some ind0 =>
      simp only [hind0] at h
      have hp0 : l0 + k.length < b.length := (List.getElem?_eq_some_iff.mp hind0).1
      split_ifs at h with hi2
      · -- skip branch: buffer unchanged, warning appended
        rcases List.mem_cons.mp hl with heq | hmem
        · subst heq
          refine ⟨⟨ind0, hind0⟩, ?_, ?_⟩
          · intro ind hind hne
            have : ind = ind0 := by
              rw [hind0] at hind
              exact (Option.some.inj hind).symm
            subst this
            constructor
            · exact patchOccs_warn_mono k v rest b _ out h
                (Warn.badIndicator k ind) (List.mem_append_right _ (List.mem_singleton_self _))
            · intro q hq1 hq2
              exact patchOccs_frame k v rest q
                (fun l2 hl2 => occOK_frame k.length l k.length l2 q (hOK0 l2 hl2) hq1 hq2)
                b _ out h
          · intro hind2
            rw [hind0] at hind2
            exact absurd (Option.some.inj hind2) hi2
        · have hrec := ih hpwrest b _ out h l hmem
          exact hrec
      · -- write branch
        cases henc : encodeLE4 v with
        | none => rw [henc] at h; cases h
        | some vb =>
          simp only [henc] at h
          have hvb := encodeLE4_length v vb henc
          have hi2' : ind0 = 2 := by
            by_contra hc
            exact hi2 hc
          rcases List.mem_cons.mp hl with heq | hmem
          · subst heq
            refine ⟨⟨ind0, hind0⟩, ?_, ?_⟩
            · intro ind hind hne
              rw [hind0] at hind
              exact absurd ((Option.some.inj hind).symm.trans hi2') hne
            · intro _
              refine ⟨vb, rfl, ?_, ?_⟩
              · have hfr := patchOccs_frame k v rest (l + k.length)
                  (fun l2 hl2 => occOK_frame k.length l k.length l2 (l + k.length)
                    (hOK0 l2 hl2) (Nat.le_refl _) (by omega))
                  (writeBytes b (l + k.length + 1) vb) w out h
                rw [hfr, wb_get_lt b (l + k.length + 1) vb (l + k.length) (by omega) (by omega),
                  hind0, hi2']
              · intro q hq1 hq2
                have hfr := patchOccs_frame k v rest q
                  (fun l2 hl2 => occOK_frame k.length l k.length l2 q
                    (hOK0 l2 hl2) (by omega) (by omega))
                  (writeBytes b (l + k.length + 1) vb) w out h
                rw [hfr, wb_get_in b (l + k.length + 1) vb q (by omega) hq1 (by omega)]
          · have hrec := ih hpwrest (writeBytes b (l0 + k.length + 1) vb) w out h l hmem
            have hOKl := hOK0 l hmem
            have hindstable : (writeBytes b (l0 + k.length + 1) vb)[l + k.length]? =
                b[l + k.length]? := by
              apply wb_get_out b (l0 + k.length + 1) vb (l + k.length) (by omega)
              simp only [occOK] at hOKl
              rw [hvb]
              omega
            refine ⟨?_, ?_, ?_⟩
            · obtain ⟨ind, hind⟩ := hrec.1
              exact ⟨ind, by rw [← hindstable]; exact hind⟩
            · intro ind hind hne
              have h1 := hrec.2.1 ind (by rw [hindstable]; exact hind) hne
              refine ⟨h1.1, ?_⟩
              intro q hq1 hq2
              rw [h1.2 q hq1 hq2]
              apply wb_get_out b (l0 + k.length + 1) vb q (by omega)
              have := occOK_frame k.length l k.length l0 q (occOK_swap _ _ _ _ hOKl) hq1 hq2
              rw [hvb]
              omega
            · intro hind2
              obtain ⟨vb2, henc2, hrest2⟩ := hrec.2.2 (by rw [hindstable]; exact hind2)
              have hvv : vb2 = vb := by
                rw [henc] at henc2
                exact (Option.some.inj henc2).symm
              subst hvv
              exact ⟨vb2, rfl, hrest2⟩


theorem window_frame_hq (table : List (String × List Nat)) (ht : TableOK table)
    (k : String) (l : Nat) (hk : (k, l) ∈ occPairs table) (q : Nat)
    (hq1 : l + k.length ≤ q) (hq2 : q < l + k.length + 5) :
    ∀ (e : String × Int), e.1 ≠ k →
      ignored_keys.contains e.1 = false →
      ∀ offs2, table.lookup e.1 = some offs2 →
        ∀ l2 ∈ offs2, ¬ (l2 + e.1.length + 1 ≤ q ∧ q < l2 + e.1.length + 5) := by
  intro e hne hig2 offs2 hlk2 l2 hl2
  have hmem2 : (e.1, l2) ∈ occPairs table := mem_occPairs table e.1 offs2 l2 hlk2 hig2 hl2
  have hOK := table_occOK table ht k e.1 l l2 hk hmem2 (fun hc => hne hc.1.symm)
  exact occOK_frame k.length l e.1.length l2 q hOK hq1 hq2

theorem patchGo_effect (table : List (String × List Nat)) (ht : TableOK table) :
    ∀ (edits : List (String × Int)),
      (edits.map Prod.fst).Nodup →
      ∀ (k : String) (v : Int), (k, v) ∈ edits →
        ignored_keys.contains k = false →
        ∀ offs, table.lookup k = some offs →
        ∀ l ∈ offs,
        ∀ (b : List Nat) (w : List Warn) (out : List Nat × List Warn),
          patchGo table edits (b, w) = some out →
          (∃ ind, b[l + k.length]? = some ind) ∧
          (∀ ind, b[l + k.length]? = some ind → ind ≠ 2 →
            Warn.badIndicator k ind ∈ out.2 ∧
            ∀ q, l + k.length ≤ q → q < l + k.length + 5 → out.1[q]? = b[q]?) ∧
          (b[l + k.length]? = some 2 →
            ∃ vb, encodeLE4 v = some vb ∧ out.1[l + k.length]? = some 2 ∧
              ∀ q, l + k.length + 1 ≤ q → q < l + k.length + 5 →
                out.1[q]? = vb[q - (l + k.length + 1)]?) := by
  intro edits
  induction edits with
  | nil =>
    intro _ k v hmem
    cases hmem
  | cons e rest ih =>
    intro hnd k v hmem hig offs hlk l hl b w out hgo
    rw [List.map_cons, List.nodup_cons] at hnd
    obtain ⟨hkey, hndrest⟩ := hnd
    have hkocc : (k, l) ∈ occPairs table := mem_occPairs table k offs l hlk hig hl
    simp only [patchGo] at hgo
    cases hstep : patchStep table (b, w) e with
    | none => rw [hstep] at hgo; cases hgo
    | some st2 =>
      rw [hstep] at hgo
      obtain ⟨b2, w2⟩ := st2
      rcases List.mem_cons.mp hmem with heq | hmemrest
      · -- e is our edit (k, v)
        have he1 : e.1 = k := by rw [← heq]
        have hrestq : ∀ q, l + k.length ≤ q → q < l + k.length + 5 →
            out.1[q]? = b2[q]? := by
          intro q hq1 hq2
          apply patchGo_frame table q rest _ b2 w2 out hgo
          intro e2 he2 hig2 offs2 hlk2 l2 hl2
          have hne2 : e2.1 ≠ k := by
            intro hc
            apply hkey
            rw [he1, ← hc]
            exact List.mem_map_of_mem Prod.fst he2
          exact window_frame_hq table ht k l hkocc q hq1 hq2 e2 hne2 hig2 offs2 hlk2 l2 hl2
        subst heq
        simp only [patchStep] at hstep
        rw [if_neg (fun hc => Bool.noConfusion (hig ▸ hc)), hlk] at hstep
        have hpw := pairwise_offs_of_TableOK table ht k offs hlk hig
        have heff := patchOccs_effect k v offs hpw b w (b2, w2) hstep l hl
        refine ⟨heff.1, ?_, ?_⟩
        · intro ind hind hne
          have h1 := heff.2.1 ind hind hne
          refine ⟨patchGo_warn_mono table rest b2 w2 out hgo _ h1.1, ?_⟩
          intro q hq1 hq2
          rw [hrestq q hq1 hq2]
          exact h1.2 q hq1 hq2
        · intro hind2
          obtain ⟨vb, henc, hindout, hwin⟩ := heff.2.2 hind2
          refine ⟨vb, henc, ?_, ?_⟩
          · rw [hrestq (l + k.length) (Nat.le_refl _) (by omega)]
            exact hindout
          · intro q hq1 hq2
            rw [hrestq q (by omega) hq2]
            exact hwin q hq1 hq2
      · -- our edit is further down
        have hne1 : e.1 ≠ k := by
          intro hc
          apply hkey
          rw [hc]
          exact List.mem_map_of_mem Prod.fst hmemrest
        have hstepq : ∀ q, l + k.length ≤ q → q < l + k.length + 5 → b2[q]? = b[q]? := by
          intro q hq1 hq2
          exact patchStep_frame table e q
            (fun hig2 offs2 hlk2 => window_frame_hq table ht k l hkocc q hq1 hq2 e hne1
              hig2 offs2 hlk2) b w (b2, w2) hstep
        have hrec := ih hndrest k v hmemrest hig offs hlk l hl b2 w2 out hgo
        have hindstable : b2[l + k.length]? = b[l + k.length]? :=
          hstepq (l + k.length) (Nat.le_refl _) (by omega)
        refine ⟨?_, ?_, ?_⟩
        · obtain ⟨ind, hind⟩ := hrec.1
          exact ⟨ind, by rw [← hindstable]; exact hind⟩
        · intro ind hind hne
          have h1 := hrec.2.1 ind (by rw [hindstable]; exact hind) hne
          refine ⟨h1.1, ?_⟩
          intro q hq1 hq2
          rw [h1.2 q hq1 hq2]
          exact hstepq q hq1 hq2
        · intro hind2
          exact hrec.2.2 (by rw [hindstable]; exact hind2)


theorem indicator_frame_hq (table : List (String × List Nat)) (ht : TableOK table)
    (k : String) (l : Nat) (hk : (k, l) ∈ occPairs table) :
    ∀ (e : String × Int), ignored_keys.contains e.1 = false →
      ∀ offs2, table.lookup e.1 = some offs2 →
        ∀ l2 ∈ offs2,
          ¬ (l2 + e.1.length + 1 ≤ l + k.length ∧ l + k.length < l2 + e.1.length + 5) := by
  intro e hig2 offs2 hlk2 l2 hl2
  have hmem2 : (e.1, l2) ∈ occPairs table := mem_occPairs table e.1 offs2 l2 hlk2 hig2 hl2
  by_cases hpair : e.1 = k ∧ l2 = l
  · have hlen : e.1.length = k.length := by rw [hpair.1]
    rw [hpair.2, hlen]
    omega
  · have hOK := table_occOK table ht k e.1 l l2 hk hmem2
      (fun hc => hpair ⟨hc.1.symm, hc.2.symm⟩)
    exact occOK_frame k.length l e.1.length l2 (l + k.length) hOK (Nat.le_refl _) (by omega)

theorem patchOccs_succeeds (k : String) (v : Int) :
    ∀ (offs : List Nat),
      offs.Pairwise (fun l1 l2 => occOK (k.length, l1) (k.length, l2)) →
      ∀ (b : List Nat) (w : List Warn),
        (∀ l ∈ offs, ∃ ind, b[l + k.length]? = some ind ∧
          (ind = 2 → ∃ vb, encodeLE4 v = some vb)) →
        ∃ out, patchOccs k v offs (b, w) = some out := by
  intro offs
  induction offs with
  | nil =>
    intro _ b w _
    exact ⟨(b, w), rfl⟩
  | cons l0 rest ih =>
    intro hpw b w hhyp
    rw [List.pairwise_cons] at hpw
    obtain ⟨hOK0, hpwrest⟩ := hpw
    obtain ⟨ind0, hind0, hi0⟩ := hhyp l0 (List.mem_cons_self _ _)
    have hp0 : l0 + k.length < b.length := (List.getElem?_eq_some_iff.mp hind0).1
    simp only [patchOccs, hind0]
    split_ifs with hi2
    · exact ih hpwrest b _ (fun l hl => hhyp l (List.mem_cons_of_mem _ hl))
    · have hi2' : ind0 = 2 := by
        by_contra hc
        exact hi2 hc
      obtain ⟨vb, henc⟩ := hi0 hi2'
      simp only [henc]
      apply ih hpwrest (writeBytes b (l0 + k.length + 1) vb) w
      intro l hl
      obtain ⟨ind, hind, hi⟩ := hhyp l (List.mem_cons_of_mem _ hl)
      refine ⟨ind, ?_, hi⟩
      rw [← hind]
      apply wb_get_out b (l0 + k.length + 1) vb (l + k.length) (by omega)
      have hOKl := hOK0 l hl
      simp only [occOK] at hOKl
      rw [encodeLE4_length v vb henc]
      omega

theorem patchStep_succeeds (table : List (String × List Nat)) (ht : TableOK table)
    (e : String × Int) (b : List Nat) (w : List Warn)
    (hhyp : ignored_keys.contains e.1 = false →
      ∀ offs, table.lookup e.1 = some offs →
        ∀ l ∈ offs, ∃ ind, b[l + e.1.length]? = some ind ∧
          (ind = 2 → ∃ vb, encodeLE4 e.2 = some vb)) :
    ∃ out, patchStep table (b, w) e = some out := by
  simp only [patchStep]
  split_ifs with hig
  · exact ⟨(b, w), rfl⟩
  · cases hlk : table.lookup e.1 with
    | none => exact ⟨(b, w ++ [Warn.unknownKey e.1]), rfl⟩
    | some offs =>
      have hig' : ignored_keys.contains e.1 = false := by simpa using hig
      exact patchOccs_succeeds e.1 e.2 offs
        (pairwise_offs_of_TableOK table ht e.1 offs hlk hig') b w (hhyp hig' offs hlk)

theorem patchGo_succeeds (table : List (String × List Nat)) (ht : TableOK table) :
    ∀ (edits : List (String × Int)) (b : List Nat) (w : List Warn),
      (∀ (k : String) (v : Int), (k, v) ∈ edits → ignored_keys.contains k = false →
        ∀ offs, table.lookup k = some offs →
          ∀ l ∈ offs, ∃ ind, b[l + k.length]? = some ind ∧
            (ind = 2 → ∃ vb, encodeLE4 v = some vb)) →
      ∃ out, patchGo table edits (b, w) = some out := by
  intro edits
  induction edits with
  | nil =>
    intro b w _
    exact ⟨(b, w), rfl⟩
  | cons e rest ih =>
    intro b w hhyp
    obtain ⟨st2, hstep⟩ := patchStep_succeeds table ht e b w
      (fun hig offs hlk l hl => hhyp e.1 e.2 (by
        have : (e.1, e.2) = e := rfl
        rw [this]
        exact List.mem_cons_self _ _) hig offs hlk l hl)
    obtain ⟨b2, w2⟩ := st2
    obtain ⟨out, hgo⟩ := ih b2 w2 (by
      intro k v hmem hig offs hlk l hl
      obtain ⟨ind, hind, hi⟩ := hhyp k v (List.mem_cons_of_mem _ hmem) hig offs hlk l hl
      refine ⟨ind, ?_, hi⟩
      rw [← hind]
      have hkocc : (k, l) ∈ occPairs table := mem_occPairs table k offs l hlk hig hl
      exact patchStep_frame table e (l + k.length)
        (fun hig2 offs2 hlk2 => indicator_frame_hq table ht k l hkocc e hig2 offs2 hlk2)
        b w (b2, w2) hstep)
    refine ⟨out, ?_⟩
    simp only [patchGo, hstep]
    exact hgo


theorem patch_idem_core (table : List (String × List Nat)) (ht : TableOK table)
    (edits : List (String × Int)) (hnd : (edits.map Prod.fst).Nodup)
    (buf b1 : List Nat) (w1 : List Warn)
    (h1 : patchGo table edits (buf, []) = some (b1, w1)) :
    ∃ w2, patchGo table edits (b1, []) = some (b1, w2) := by
  -- indicator bytes are stable across a pass
  have hstable : ∀ (k : String) (l : Nat), (k, l) ∈ occPairs table →
      b1[l + k.length]? = buf[l + k.length]? := by
    intro k l hkocc
    exact patchGo_frame table (l + k.length) edits
      (fun e2 _ hig2 offs2 hlk2 l2 hl2 =>
        indicator_frame_hq table ht k l hkocc e2 hig2 offs2 hlk2 l2 hl2)
      buf [] (b1, w1) h1
  -- the second pass runs to completion
  obtain ⟨out2, hgo2⟩ := patchGo_succeeds table ht edits b1 [] (by
    intro k v hmem hig offs hlk l hl
    have hkocc : (k, l) ∈ occPairs table := mem_occPairs table k offs l hlk hig hl
    have heff := patchGo_effect table ht edits hnd k v hmem hig offs hlk l hl
      buf [] (b1, w1) h1
    obtain ⟨ind, hind⟩ := heff.1
    refine ⟨ind, ?_, ?_⟩
    · rw [hstable k l hkocc]
      exact hind
    · intro hi2
      subst hi2
      obtain ⟨vb, henc, _⟩ := heff.2.2 hind
      exact ⟨vb, henc⟩)
  obtain ⟨b2, w2⟩ := out2
  -- the second pass reproduces b1 byte for byte
  have hb2 : b2 = b1 := by
    apply List.ext_getElem?
    intro q
    by_cases hwin : ∃ (k : String) (v : Int) (offs : List Nat) (l : Nat),
        (k, v) ∈ edits ∧ ignored_keys.contains k = false ∧
        table.lookup k = some offs ∧ l ∈ offs ∧
        l + k.length + 1 ≤ q ∧ q < l + k.length + 5
    · obtain ⟨k, v, offs, l, hmem, hig, hlk, hl, hq1, hq2⟩ := hwin
      have hkocc : (k, l) ∈ occPairs table := mem_occPairs table k offs l hlk hig hl
      have heff1 := patchGo_effect table ht edits hnd k v hmem hig offs hlk l hl
        buf [] (b1, w1) h1
      have heff2 := patchGo_effect table ht edits hnd k v hmem hig offs hlk l hl
        b1 [] (b2, w2) hgo2
      obtain ⟨ind, hind⟩ := heff1.1
      by_cases hi2 : ind = 2
      · subst hi2
        obtain ⟨vb, henc, _, hwin1⟩ := heff1.2.2 hind
        have hind1 : b1[l + k.length]? = some 2 := by
          rw [hstable k l hkocc]
          exact hind
        obtain ⟨vb2, henc2, _, hwin2⟩ := heff2.2.2 hind1
        have hvv : vb2 = vb := by
          rw [henc] at henc2
          exact (Option.some.inj henc2).symm
        subst hvv
        rw [hwin2 q hq1 hq2, hwin1 q hq1 hq2]
      · have hind1 : b1[l + k.length]? = some ind := by
          rw [hstable k l hkocc]
          exact hind
        have h2 := heff2.2.1 ind hind1 hi2
        exact h2.2 q (by omega) hq2
    · apply patchGo_frame table q edits _ b1 [] (b2, w2) hgo2
      intro e he hig offs hlk l hl hcont
      exact hwin ⟨e.1, e.2, offs, l, by
        have : (e.1, e.2) = e := rfl
        rw [this]
        exact he, hig, hlk, hl, hcont.1, hcont.2⟩
  subst hb2
  exact ⟨w2, hgo2⟩


theorem mem_versionOccs (table : List (String × List Nat)) (k : String) (offs : List Nat)
    (l : Nat) (hlk : table.lookup k = some offs)
    (hkn : ignored_keys.contains k = true) (hl : l ∈ offs) :
    (k.length, l) ∈ versionOccs table := by
  unfold versionOccs
  rw [List.mem_flatMap]
  refine ⟨(k, offs), ?_, ?_⟩
  · rw [List.mem_filter]
    exact ⟨lookup_mem k table offs hlk, hkn⟩
  · rw [List.mem_map]
    exact ⟨l, hl, rfl⟩

theorem patchOccs_cons_skip (k : String) (v : Int) (l : Nat) (rest : List Nat)
    (b : List Nat) (w : List Warn) (ind : Nat)
    (hind : b[l + k.length]? = some ind) (hne : ind ≠ 2) :
    patchOccs k v (l :: rest) (b, w) =
      patchOccs k v rest (b, w ++ [Warn.badIndicator k ind]) := by
  simp only [patchOccs, hind]
  rw [if_pos hne]

theorem patchOccs_cons_write (k : String) (v : Int) (l : Nat) (rest : List Nat)
    (b : List Nat) (w : List Warn) (vb : List Nat)
    (hind : b[l + k.length]? = some 2) (henc : encodeLE4 v = some vb) :
    patchOccs k v (l :: rest) (b, w) =
      patchOccs k v rest (writeBytes b (l + k.length + 1) vb, w) := by
  simp only [patchOccs, hind, henc]
  rw [if_neg (fun hc => hc rfl)]

theorem patchStep_found (table : List (String × List Nat)) (e : String × Int)
    (st : List Nat × List Warn) (offs : List Nat)
    (hig : ignored_keys.contains e.1 = false) (hlk : table.lookup e.1 = some offs) :
    patchStep table st e = patchOccs e.1 e.2 offs st := by
  simp only [patchStep, hlk]
  rw [if_neg (fun hc => Bool.noConfusion (hig ▸ hc))]

theorem patchGo_cons (table : List (String × List Nat)) (e : String × Int)
    (rest : List (String × Int)) (st st2 : List Nat × List Warn)
    (hstep : patchStep table st e = some st2) :
    patchGo table (e :: rest) st = patchGo table rest st2 := by
  simp only [patchGo, hstep]

theorem accel_ind1_C8 : patchBufC8[22 + "acceleration_scaler".length]? = some 2 := by
  show patchBufC8[41]? = some 2
  rw [patchBufC8, List.getElem?_replicate, if_pos (by norm_num)]

theorem accel_write1_C8 :
    writeBytes patchBufC8 (22 + "acceleration_scaler".length + 1) [7, 0, 0, 0] =
      List.replicate 42 2 ++ ([7, 0, 0, 0] ++ List.replicate 2823 2) := by
  show writeBytes patchBufC8 42 [7, 0, 0, 0] = _
  apply List.ext_getElem?
  intro q
  simp only [writeBytes, patchBufC8, List.getElem?_append, List.getElem?_take,
    List.getElem?_drop, List.getElem?_replicate, List.length_append, List.length_take,
    List.length_replicate, List.length_cons, List.length_nil, List.getElem?_cons_zero,
    List.getElem?_cons_succ]
  norm_num
  split_ifs <;> first
    | rfl
    | omega

theorem accel_ind2_C8 :
    (List.replicate 42 2 ++ ([7, 0, 0, 0] ++
      List.replicate 2823 2))[2845 + "acceleration_scaler".length]? = some 2 := by
  show (List.replicate 42 2 ++ ([7, 0, 0, 0] ++ List.replicate 2823 2))[2864]? = some 2
  simp only [List.getElem?_append, List.getElem?_replicate, List.length_append,
    List.length_replicate, List.length_cons, List.length_nil, List.getElem?_cons_zero,
    List.getElem?_cons_succ]
  norm_num

theorem accel_write2_C8 :
    writeBytes (List.replicate 42 2 ++ ([7, 0, 0, 0] ++ List.replicate 2823 2))
      (2845 + "acceleration_scaler".length + 1) [7, 0, 0, 0] = patchBufC8out := by
  show writeBytes (List.replicate 42 2 ++ ([7, 0, 0, 0] ++ List.replicate 2823 2))
    2865 [7, 0, 0, 0] = _
  apply List.ext_getElem?
  intro q
  simp only [writeBytes, patchBufC8out, List.getElem?_append, List.getElem?_take,
    List.getElem?_drop, List.getElem?_replicate, List.length_append, List.length_take,
    List.length_replicate, List.length_cons, List.length_nil, List.getElem?_cons_zero,
    List.getElem?_cons_succ]
  norm_num
  split_ifs <;> try omega
  · rfl
  · rfl
  · rfl
  · rfl
  · symm
    exact List.getElem?_eq_none (by simp only [List.length_cons, List.length_nil]; omega)

theorem c8_first_pass_edits :
    patchEdits physical_constraints_offsets [("acceleration_scaler", 7)] patchBufC8 =
      some (patchBufC8out, []) := by
  have henc : encodeLE4 7 = some [7, 0, 0, 0] := by decide
  have hstep : patchStep physical_constraints_offsets (patchBufC8, [])
      ("acceleration_scaler", 7) = some (patchBufC8out, []) := by
    rw [patchStep_found physical_constraints_offsets ("acceleration_scaler", 7)
      (patchBufC8, []) [22, 2845] (by decide) (by decide)]
    rw [patchOccs_cons_write "acceleration_scaler" 7 22 [2845] patchBufC8 []
      [7, 0, 0, 0] accel_ind1_C8 henc]
    rw [accel_write1_C8]
    rw [patchOccs_cons_write "acceleration_scaler" 7 2845 []
      (List.replicate 42 2 ++ ([7, 0, 0, 0] ++ List.replicate 2823 2)) []
      [7, 0, 0, 0] accel_ind2_C8 henc]
    rw [accel_write2_C8]
    rfl
  unfold patchEdits
  rw [patchGo_cons physical_constraints_offsets ("acceleration_scaler", 7) []
    (patchBufC8, []) (patchBufC8out, []) hstep]
  rfl

theorem vmaj_ind_C1 : patchBufC1[1803 + "version_major".length]? = some 2 := by
  show patchBufC1[1816]? = some 2
  simp only [patchBufC1, List.getElem?_append, List.getElem?_replicate,
    List.length_replicate, List.getElem?_cons_zero, List.getElem?_cons_succ]
  norm_num

theorem vmaj_slice_C1 :
    pySlice patchBufC1 (1803 + "version_major".length + 1) 4 = [0, 0, 0, 0] := by
  show pySlice patchBufC1 1817 4 = [0, 0, 0, 0]
  apply List.ext_getElem?
  intro q
  simp only [pySlice, patchBufC1, List.getElem?_append, List.getElem?_take,
    List.getElem?_drop, List.getElem?_replicate, List.length_append, List.length_take,
    List.length_replicate, List.length_cons, List.length_nil, List.getElem?_cons_zero,
    List.getElem?_cons_succ]
  split_ifs <;> try omega
  · rw [show 1817 + q - 1816 = q + 1 from by omega]
    exact List.getElem?_cons_succ
  · symm
    exact List.getElem?_eq_none (by simp only [List.length_cons, List.length_nil]; omega)

theorem accel_ind1_C3 : patchBufC3[22 + "acceleration_scaler".length]? = some 0 := by
  show patchBufC3[41]? = some 0
  simp only [patchBufC3, List.getElem?_append, List.getElem?_replicate,
    List.length_replicate, List.getElem?_cons_zero, List.getElem?_cons_succ]
  norm_num

theorem accel_ind2_C3 : patchBufC3[2845 + "acceleration_scaler".length]? = some 2 := by
  show patchBufC3[2864]? = some 2
  simp only [patchBufC3, List.getElem?_append, List.getElem?_replicate,
    List.length_replicate, List.getElem?_cons_zero, List.getElem?_cons_succ]
  norm_num

theorem accel_write_C3 :
    writeBytes patchBufC3 (2845 + "acceleration_scaler".length + 1) [7, 0, 0, 0] =
      patchBufC3 ++ [7, 0, 0, 0] := by
  show writeBytes patchBufC3 2865 [7, 0, 0, 0] = _
  apply List.ext_getElem?
  intro q
  simp only [writeBytes, patchBufC3, List.getElem?_append, List.getElem?_take,
    List.getElem?_drop, List.getElem?_replicate, List.length_append, List.length_take,
    List.length_replicate, List.length_cons, List.length_nil, List.getElem?_cons_zero,
    List.getElem?_cons_succ]
  norm_num
  split_ifs <;> try omega
  · rfl
  · rfl
  · rfl
  · have h1 : ([2] : List Nat)[2869 + (q - 2869) - 2864]? = none :=
      List.getElem?_eq_none (by simp only [List.length_cons, List.length_nil]; omega)
    have h2 : ([7, 0, 0, 0] : List Nat)[q - 2865]? = none :=
      List.getElem?_eq_none (by simp only [List.length_cons, List.length_nil]; omega)
    rw [h1, h2]

/-- Claim C1 is false as stated: an edit of version_major, whose offsets are in
the table and whose first indicator byte is the int32 marker 0x02, is neither
warned about nor written. -/
theorem c1_counterexample :
    ¬ PatchClaimC1 physical_constraints_offsets patchBufC1 [("version_major", 7)] := by
  intro h
  have hpe : patchEdits physical_constraints_offsets [("version_major", 7)] patchBufC1 =
      some (patchBufC1, []) := rfl
  have h2 := (h (patchBufC1, []) hpe "version_major" 7 (by decide)
    [1803, 4626] (by decide) 1803 (by decide)).2 vmaj_ind_C1
  obtain ⟨vb, henc, hslice⟩ := h2
  rw [show encodeLE4 7 = some [7, 0, 0, 0] from by decide] at henc
  have hslice2 : pySlice patchBufC1 (1803 + "version_major".length + 1) 4 = vb := hslice
  rw [← Option.some.inj henc, vmaj_slice_C1] at hslice2
  exact absurd hslice2 (by decide)

/-- C1, amended: over a geometrically well-formed offsets table and an edits
mapping with distinct keys, every occurrence of every edited field that is not
one of the ignored version keys is treated exactly as the claim says: the
indicator byte sits at offset + key length and is readable; if it is not 0x02
the occurrence produces a badIndicator warning naming the field and its five
bytes survive to the output; if it is 0x02 the four bytes after it hold the
little-endian encoding of the new value and the indicator byte itself is
preserved. -/
theorem c1_patch_per_occurrence (table : List (String × List Nat))
    (buf : List Nat) (edits : List (String × Int)) (out : List Nat × List Warn)
    (k : String) (v : Int) (offs : List Nat) (l : Nat)
    (ht : TableOK table) (hnd : (edits.map Prod.fst).Nodup)
    (hpe : patchEdits table edits buf = some out)
    (hmem : (k, v) ∈ edits) (hig : ignored_keys.contains k = false)
    (hlk : table.lookup k = some offs) (hl : l ∈ offs) :
    (∃ ind, buf[l + k.length]? = some ind) ∧
    (∀ ind, buf[l + k.length]? = some ind → ind ≠ 2 →
      Warn.badIndicator k ind ∈ out.2 ∧
      ∀ q, l + k.length ≤ q → q < l + k.length + 5 → out.1[q]? = buf[q]?) ∧
    (buf[l + k.length]? = some 2 →
      ∃ vb, encodeLE4 v = some vb ∧ out.1[l + k.length]? = some 2 ∧
        ∀ q, l + k.length + 1 ≤ q → q < l + k.length + 5 →
          out.1[q]? = vb[q - (l + k.length + 1)]?) :=
  patchGo_effect table ht edits hnd k v hmem hig offs hlk l hl buf [] out hpe

theorem c1_patch_per_occurrence_witness :
    (TableOK tinyTable ∧ (([("k", (5 : Int))]).map Prod.fst).Nodup ∧
      patchEdits tinyTable [("k", 5)] tinyBuf = some (([9, 2, 5, 0, 0, 0] : List Nat), []) ∧
      ("k", (5 : Int)) ∈ [("k", (5 : Int))] ∧
      ignored_keys.contains "k" = false ∧
      tinyTable.lookup "k" = some [0] ∧ (0 : Nat) ∈ ([0] : List Nat)) ∧
    ((∃ ind, tinyBuf[0 + "k".length]? = some ind) ∧
     (∀ ind, tinyBuf[0 + "k".length]? = some ind → ind ≠ 2 →
       Warn.badIndicator "k" ind ∈ ((([9, 2, 5, 0, 0, 0] : List Nat), ([] : List Warn))).2 ∧
       ∀ q, 0 + "k".length ≤ q → q < 0 + "k".length + 5 →
         (([9, 2, 5, 0, 0, 0] : List Nat))[q]? = tinyBuf[q]?) ∧
     (tinyBuf[0 + "k".length]? = some 2 →
       ∃ vb, encodeLE4 5 = some vb ∧
         (([9, 2, 5, 0, 0, 0] : List Nat))[0 + "k".length]? = some 2 ∧
         ∀ q, 0 + "k".length + 1 ≤ q → q < 0 + "k".length + 5 →
           (([9, 2, 5, 0, 0, 0] : List Nat))[q]? = vb[q - (0 + "k".length + 1)]?)) :=
  ⟨⟨by decide, by decide, by decide, by decide, by decide, by decide, by decide⟩,
   c1_patch_per_occurrence tinyTable tinyBuf [("k", 5)] (([9, 2, 5, 0, 0, 0] : List Nat), [])
     "k" 5 [0] 0 (by decide) (by decide) (by decide) (by decide) (by decide) (by decide)
     (by decide)⟩

/-- Claim C3 is false as stated: patching acceleration_scaler into a buffer
that ends one byte past the second indicator byte succeeds and grows the
buffer from 2865 to 2869 bytes. -/
theorem c3_counterexample : ¬ PatchClaimC3 := by
  intro h
  have henc : encodeLE4 7 = some [7, 0, 0, 0] := by decide
  have hstep : patchStep physical_constraints_offsets (patchBufC3, [])
      ("acceleration_scaler", 7) =
      some (patchBufC3 ++ [7, 0, 0, 0], [Warn.badIndicator "acceleration_scaler" 0]) := by
    rw [patchStep_found physical_constraints_offsets ("acceleration_scaler", 7)
      (patchBufC3, []) [22, 2845] (by decide) (by decide)]
    rw [patchOccs_cons_skip "acceleration_scaler" 7 22 [2845] patchBufC3 [] 0
      accel_ind1_C3 (by decide)]
    rw [List.nil_append]
    rw [patchOccs_cons_write "acceleration_scaler" 7 2845 [] patchBufC3
      [Warn.badIndicator "acceleration_scaler" 0] [7, 0, 0, 0] accel_ind2_C3 henc]
    rw [accel_write_C3]
    rfl
  have hpe : patchEdits physical_constraints_offsets [("acceleration_scaler", 7)]
      patchBufC3 =
      some (patchBufC3 ++ [7, 0, 0, 0], [Warn.badIndicator "acceleration_scaler" 0]) := by
    unfold patchEdits
    rw [patchGo_cons physical_constraints_offsets ("acceleration_scaler", 7) []
      (patchBufC3, []) _ hstep]
    rfl
  have h3 : (patchBufC3 ++ [7, 0, 0, 0]).length = patchBufC3.length :=
    h patchBufC3 [("acceleration_scaler", 7)] _ hpe
  rw [List.length_append, show ([7, 0, 0, 0] : List Nat).length = 4 from rfl] at h3
  omega

/-- C3, amended: the patched buffer is never shorter than the input; it has
exactly the input's length as soon as every value window of the edited fields
lies inside the buffer; and every byte position that is in no value window
whose indicator byte reads 0x02 in the input keeps its input value (positions
past the input length included). -/
theorem c3_patch_length_and_frame (buf : List Nat) (edits : List (String × Int))
    (out : List Nat × List Warn)
    (hnd : (edits.map Prod.fst).Nodup)
    (hpe : patchEdits physical_constraints_offsets edits buf = some out) :
    buf.length ≤ out.1.length ∧
    ((∀ e ∈ edits, ignored_keys.contains e.1 = false →
        ∀ offs, physical_constraints_offsets.lookup e.1 = some offs →
          ∀ l ∈ offs, l + e.1.length + 5 ≤ buf.length) →
      out.1.length = buf.length) ∧
    (∀ q,
      (∀ (k : String) (v : Int) (offs : List Nat) (l : Nat),
        (k, v) ∈ edits → ignored_keys.contains k = false →
        physical_constraints_offsets.lookup k = some offs → l ∈ offs →
        l + k.length + 1 ≤ q → q < l + k.length + 5 →
        buf[l + k.length]? ≠ some 2) →
      out.1[q]? = buf[q]?) := by
  refine ⟨patchGo_length_le physical_constraints_offsets edits buf [] out hpe, ?_, ?_⟩
  · intro hfit
    exact patchGo_length_eq physical_constraints_offsets edits buf [] out hfit hpe
  · intro q hside
    by_cases hwin : ∃ (k : String) (v : Int) (offs : List Nat) (l : Nat),
        (k, v) ∈ edits ∧ ignored_keys.contains k = false ∧
        physical_constraints_offsets.lookup k = some offs ∧ l ∈ offs ∧
        l + k.length + 1 ≤ q ∧ q < l + k.length + 5
    · obtain ⟨k, v, offs, l, hmem, hig, hlk, hl, hq1, hq2⟩ := hwin
      have heff := patchGo_effect physical_constraints_offsets physical_table_ok
        edits hnd k v hmem hig offs hlk l hl buf [] out hpe
      obtain ⟨ind, hind⟩ := heff.1
      have hne : ind ≠ 2 := by
        intro hc
        subst hc
        exact hside k v offs l hmem hig hlk hl hq1 hq2 hind
      exact (heff.2.1 ind hind hne).2 q (by omega) hq2
    · apply patchGo_frame physical_constraints_offsets q edits _ buf [] out hpe
      intro e he hig offs hlk l hl hcont
      refine hwin ⟨e.1, e.2, offs, l, ?_, hig, hlk, hl, hcont.1, hcont.2⟩
      have he' : (e.1, e.2) = e := rfl
      rw [he']
      exact he

theorem c3_patch_length_and_frame_witness :
    ((([("acceleration_scaler", (7 : Int))]).map Prod.fst).Nodup ∧
      patchEdits physical_constraints_offsets [("acceleration_scaler", 7)] patchBufC8 =
        some (patchBufC8out, [])) ∧
    (patchBufC8.length ≤ patchBufC8out.length ∧
     ((∀ e ∈ [("acceleration_scaler", (7 : Int))], ignored_keys.contains e.1 = false →
         ∀ offs, physical_constraints_offsets.lookup e.1 = some offs →
           ∀ l ∈ offs, l + e.1.length + 5 ≤ patchBufC8.length) →
       patchBufC8out.length = patchBufC8.length) ∧
     (∀ q,
       (∀ (k : String) (v : Int) (offs : List Nat) (l : Nat),
         (k, v) ∈ [("acceleration_scaler", (7 : Int))] →
         ignored_keys.contains k = false →
         physical_constraints_offsets.lookup k = some offs → l ∈ offs →
         l + k.length + 1 ≤ q → q < l + k.length + 5 →
         patchBufC8[l + k.length]? ≠ some 2) →
       patchBufC8out[q]? = patchBufC8[q]?)) :=
  ⟨⟨by decide, c8_first_pass_edits⟩,
   c3_patch_length_and_frame patchBufC8 [("acceleration_scaler", 7)] (patchBufC8out, [])
     (by decide) c8_first_pass_edits⟩

/-- C8: the patch operation over the hardcoded offsets table is idempotent on
the buffer: a second run with the same edits mapping reproduces the first
run's buffer byte for byte. -/
theorem c8_patch_idempotent (buf b1 : List Nat) (edits : List (String × Int))
    (hnd : (edits.map Prod.fst).Nodup)
    (h : patchBuf physical_constraints_offsets edits buf = some b1) :
    patchBuf physical_constraints_offsets edits b1 = some b1 := by
  unfold patchBuf at h ⊢
  cases hpe : patchEdits physical_constraints_offsets edits buf with
  | none => rw [hpe] at h; cases h
  | some st =>
    rw [hpe] at h
    obtain ⟨b1', w1⟩ := st
    have hb : b1' = b1 := by simpa using h
    subst hb
    unfold patchEdits at hpe ⊢
    obtain ⟨w2, hgo2⟩ := patch_idem_core physical_constraints_offsets
      physical_table_ok edits hnd buf b1' w1 hpe
    rw [hgo2]
    rfl

theorem c8_patch_idempotent_witness :
    ((([("acceleration_scaler", (7 : Int))]).map Prod.fst).Nodup ∧
      patchBuf physical_constraints_offsets [("acceleration_scaler", 7)] patchBufC8 =
        some patchBufC8out) ∧
    patchBuf physical_constraints_offsets [("acceleration_scaler", 7)] patchBufC8out =
      some patchBufC8out :=
  ⟨⟨by decide, by rw [patchBuf, c8_first_pass_edits]; rfl⟩,
   c8_patch_idempotent patchBufC8 patchBufC8out [("acceleration_scaler", 7)]
     (by decide) (by rw [patchBuf, c8_first_pass_edits]; rfl)⟩

/-- C10: the four version fields have offsets in the table, yet an edit naming
one of them is a complete no-op of the patch step; no warning ever names an
ignored key; and every byte of every version-field occurrence, from its
offset through its indicator byte and value window, reaches the output
unchanged. -/
theorem c10_version_fields_untouched (buf : List Nat) (edits : List (String × Int))
    (out : List Nat × List Warn)
    (hpe : patchEdits physical_constraints_offsets edits buf = some out) :
    (∀ k ∈ ignored_keys, (physical_constraints_offsets.lookup k).isSome = true) ∧
    (∀ (st : List Nat × List Warn) (k : String) (v : Int),
      ignored_keys.contains k = true →
      patchStep physical_constraints_offsets st (k, v) = some st) ∧
    (∀ x ∈ out.2, ignored_keys.contains (Warn.key x) = false) ∧
    (∀ (k : String) (offs : List Nat), ignored_keys.contains k = true →
      physical_constraints_offsets.lookup k = some offs →
      ∀ l ∈ offs, ∀ q, l ≤ q → q < l + k.length + 5 → out.1[q]? = buf[q]?) := by
  refine ⟨by decide, ?_, ?_, ?_⟩
  · intro st k v hig
    simp only [patchStep]
    rw [if_pos hig]
  · intro x hx
    rcases patchGo_warn_keys physical_constraints_offsets edits buf [] out hpe x hx with
      hw | ⟨e, _, hkey, hig⟩
    · cases hw
    · rw [hkey]
      exact hig
  · intro k offs hig hlk l hl q hq1 hq2
    apply patchGo_frame physical_constraints_offsets q edits _ buf [] out hpe
    intro e _ hig2 offs2 hlk2 l2 hl2
    have hv : (k.length, l) ∈ versionOccs physical_constraints_offsets :=
      mem_versionOccs physical_constraints_offsets k offs l hlk hig hl
    have hb : (e.1, l2) ∈ occPairs physical_constraints_offsets :=
      mem_occPairs physical_constraints_offsets e.1 offs2 l2 hlk2 hig2 hl2
    have hvs := physical_table_version_safe (k.length, l) hv (e.1, l2) hb
    simp only at hvs
    omega

theorem c10_version_fields_untouched_witness :
    patchEdits physical_constraints_offsets [("version_major", 7)] patchBufC1 =
      some (patchBufC1, []) ∧
    ((∀ k ∈ ignored_keys, (physical_constraints_offsets.lookup k).isSome = true) ∧
     (∀ (st : List Nat × List Warn) (k : String) (v : Int),
       ignored_keys.contains k = true →
       patchStep physical_constraints_offsets st (k, v) = some st) ∧
     (∀ x ∈ (([] : List Warn)), ignored_keys.contains (Warn.key x) = false) ∧
     (∀ (k : String) (offs : List Nat), ignored_keys.contains k = true →
       physical_constraints_offsets.lookup k = some offs →
       ∀ l ∈ offs, ∀ q, l ≤ q → q < l + k.length + 5 → patchBufC1[q]? = patchBufC1[q]?)) :=
  ⟨rfl,
   c10_version_fields_untouched patchBufC1 [("version_major", 7)] (patchBufC1, [])
     rfl⟩

end OpenMatchEngine
